import Mathlib

/-!
Verification of the text-rewriting engine of this repository.

The two scripts under scrutiny are `convert_snake_to_camel.py` (the rename
engine: five regex substitutions per mapping entry) and
`remove_deleted_functions.py` (the reference-pruning engine: import-entry
removal, separator collapsing, call collapsing and test-block suppression).
Texts are modelled as `List Char`.  Each Python `re.sub` over the fixed
patterns of the scripts is embedded as a deterministic leftmost scanner:
the patterns involved have no backtracking ambiguity beyond what is
resolved explicitly below.
-/

set_option maxRecDepth 10000

/-- Python `\w` (ASCII fragment): letters, digits and underscore. -/
def isWord (ch : Char) : Bool := ch.isAlphanum || ch = '_'

/-- Python `\s` (ASCII fragment): the six whitespace characters. -/
def isWS (ch : Char) : Bool :=
  ch = ' ' || ch = '\t' || ch = '\n' || ch = '\x0d' || ch = '\x0b' || ch = '\x0c'

/-- Greedy `\s*`: drop the maximal run of whitespace. -/
def skipWS (t : List Char) : List Char := t.dropWhile isWS

/-- The whitespace run that `skipWS` drops. -/
def takeWS (t : List Char) : List Char := t.takeWhile isWS

/-- Match a literal prefix, returning the remainder on success. -/
def stripPref : List Char → List Char → Option (List Char)
  | [], t => some t
  | _ :: _, [] => none
  | a :: p, b :: t => if a = b then stripPref p t else none

/-- Consume one expected character. -/
def expectCh (ch : Char) : List Char → Option (List Char)
  | [] => none
  | a :: t => if a = ch then some t else none

/-- Word boundary `\b` after an identifier: next char absent or not a word char. -/
def bdOk : List Char → Bool
  | [] => true
  | a :: _ => !isWord a

theorem stripPref_eq_append : ∀ p t r, stripPref p t = some r → t = p ++ r := by
  intro p
  induction p with
  | nil =>
    intro t r h
    simp only [stripPref, Option.some.injEq] at h
    simpa using h
  | cons a p ih =>
    intro t r h
    cases t with
    | nil => simp [stripPref] at h
    | cons b t =>
      simp only [stripPref] at h
      by_cases hab : a = b
      · subst hab
        simp only [if_pos rfl] at h
        simpa using ih t r h
      · simp [hab] at h

theorem stripPref_self (p t : List Char) : stripPref p (p ++ t) = some t := by
  induction p with
  | nil => simp [stripPref]
  | cons a p ih => simp [stripPref, ih]

theorem stripPref_length {p t r : List Char} (h : stripPref p t = some r) :
    r.length ≤ t.length := by
  have := stripPref_eq_append p t r h
  subst this
  simp

theorem stripPref_suffix {p t r : List Char} (h : stripPref p t = some r) :
    r.IsSuffix t := by
  have := stripPref_eq_append p t r h
  subst this
  exact ⟨p, rfl⟩

theorem skipWS_suffix (t : List Char) : (skipWS t).IsSuffix t := by
  induction t with
  | nil => simp [skipWS]
  | cons a t ih =>
    by_cases h : isWS a
    · simpa [skipWS, List.dropWhile_cons, h] using ih.trans ⟨[a], rfl⟩
    · simp [skipWS, List.dropWhile_cons, h]

theorem skipWS_length (t : List Char) : (skipWS t).length ≤ t.length :=
  (skipWS_suffix t).length_le

theorem takeWS_append_skipWS (t : List Char) : takeWS t ++ skipWS t = t := by
  simp [takeWS, skipWS, List.takeWhile_append_dropWhile]

theorem skipWS_cons_of_not_ws {a : Char} (h : ¬ isWS a) (t : List Char) :
    skipWS (a :: t) = a :: t := by
  simp [skipWS, List.dropWhile_cons, h]

theorem skipWS_cons_of_ws {a : Char} (h : isWS a) (t : List Char) :
    skipWS (a :: t) = skipWS t := by
  simp [skipWS, List.dropWhile_cons, h]

theorem expectCh_some {ch : Char} : ∀ {t r : List Char},
    expectCh ch t = some r → t = ch :: r := by
  intro t r h
  cases t with
  | nil => simp [expectCh] at h
  | cons a t =>
    simp only [expectCh] at h
    by_cases hac : a = ch
    · subst hac
      simp at h
      rw [h]
    · simp [hac] at h

theorem expectCh_length {ch : Char} {t r : List Char} (h : expectCh ch t = some r) :
    r.length ≤ t.length := by
  have := expectCh_some h
  subst this
  simp

theorem expectCh_suffix {ch : Char} {t r : List Char} (h : expectCh ch t = some r) :
    r.IsSuffix t := by
  have := expectCh_some h
  subst this
  exact ⟨[ch], rfl⟩

/-!
Generic leftmost `re.sub` scanner.  A try function inspects the current
suffix and, on a match, returns the replacement text together with the
suffix remaining after the matched span.  Scanning emits unmatched
characters unchanged and continues after each matched span, exactly as
Python's `re.sub`/`re.subn` do (matches are found against the input text,
never against earlier replacements).  A fuel argument makes the recursion
structural; `Shrinks` tries never exhaust it.
-/

def Shrinks (tr : List Char → Option (List Char × List Char)) : Prop :=
  ∀ t rep rest, tr t = some (rep, rest) → rest.length < t.length

def rsF (tr : List Char → Option (List Char × List Char)) :
    Nat → List Char → List Char × Nat
  | 0, t => (t, 0)
  | _ + 1, [] => ([], 0)
  | n + 1, a :: t =>
    match tr (a :: t) with
    | some (rep, rest) =>
      let p := rsF tr n rest
      (rep ++ p.1, p.2 + 1)
    | none =>
      let p := rsF tr n t
      (a :: p.1, p.2)

/-- The substitution: output text and match count (Python `re.subn`). -/
def rs (tr : List Char → Option (List Char × List Char)) (t : List Char) :
    List Char × Nat := rsF tr t.length t

theorem rsF_fuel (tr) (h : Shrinks tr) :
    ∀ n t, t.length ≤ n → rsF tr n t = rsF tr t.length t := by
  intro n
  induction n using Nat.strong_induction_on with
  | _ n ih =>
    intro t ht
    match n, t with
    | 0, t =>
      have : t = [] := List.length_eq_zero.mp (Nat.le_zero.mp ht)
      subst this
      rfl
    | n + 1, [] => rfl
    | n + 1, a :: t =>
      simp only [List.length_cons] at ht
      simp only [List.length_cons, rsF]
      cases htr : tr (a :: t) with
      | some pr =>
        obtain ⟨rep, rest⟩ := pr
        have hlt := h _ _ _ htr
        simp only [List.length_cons] at hlt
        have e1 : rsF tr n rest = rsF tr rest.length rest :=
          ih n (by omega) rest (by omega)
        have e2 : rsF tr t.length rest = rsF tr rest.length rest :=
          ih t.length (by omega) rest (by omega)
        simp only [e1, e2]
      | none =>
        have e : rsF tr n t = rsF tr t.length t := ih n (by omega) t (by omega)
        simp only [e]

theorem rs_nil (tr) : rs tr [] = ([], 0) := rfl

theorem rs_cons_some (tr) (h : Shrinks tr) {a : Char} {t rep rest : List Char}
    (htr : tr (a :: t) = some (rep, rest)) :
    rs tr (a :: t) = (rep ++ (rs tr rest).1, (rs tr rest).2 + 1) := by
  have hlt := h _ _ _ htr
  simp only [List.length_cons] at hlt
  have e : rsF tr t.length rest = rsF tr rest.length rest :=
    rsF_fuel tr h t.length rest (by omega)
  simp only [rs, List.length_cons, rsF, htr, e]

theorem rs_cons_none (tr) (h : Shrinks tr) {a : Char} {t : List Char}
    (htr : tr (a :: t) = none) :
    rs tr (a :: t) = (a :: (rs tr t).1, (rs tr t).2) := by
  simp only [rs, List.length_cons, rsF, htr]

/-- The rewritten text of a substitution. -/
def rsText (tr : List Char → Option (List Char × List Char)) (t : List Char) :
    List Char := (rs tr t).1

/-- The match count of a substitution. -/
def rsCount (tr : List Char → Option (List Char × List Char)) (t : List Char) :
    Nat := (rs tr t).2

/-!
Single-trigger patterns.  Each of the five patterns of
`convert_snake_to_camel.py` starts with one fixed punctuation character
(`.`, `{`, `'` or `"`); `mkTry` packages such a pattern from the trigger,
the core matcher for the remainder, and the replacement text that follows
the trigger in the substitution.
-/

def mkTry (p : Char) (core : List Char → Option (List Char)) (rep : List Char) :
    List Char → Option (List Char × List Char)
  | [] => none
  | a :: t => if a = p then (core t).map (fun r => (p :: rep, r)) else none

def CoreLe (core : List Char → Option (List Char)) : Prop :=
  ∀ t r, core t = some r → r.length ≤ t.length

def CoreSuf (core : List Char → Option (List Char)) : Prop :=
  ∀ t r, core t = some r → r.IsSuffix t

theorem mkTry_shrinks (p core rep) (h : CoreLe core) : Shrinks (mkTry p core rep) := by
  intro t rep2 rest htr
  cases t with
  | nil => simp [mkTry] at htr
  | cons a t =>
    simp only [mkTry] at htr
    by_cases hap : a = p
    · simp only [if_pos hap, Option.map_eq_some'] at htr
      obtain ⟨r, hr, he⟩ := htr
      injection he with h1 h2
      have := h t r hr
      rw [← h2]
      simp only [List.length_cons]
      omega
    · simp [hap] at htr

theorem mkTry_some {p : Char} {core rep} {a : Char} {t : List Char}
    {x : List Char × List Char} (h : mkTry p core rep (a :: t) = some x) :
    a = p ∧ ∃ r, core t = some r ∧ x = (p :: rep, r) := by
  simp only [mkTry] at h
  by_cases hap : a = p
  · simp only [if_pos hap, Option.map_eq_some'] at h
    obtain ⟨r, hr, he⟩ := h
    exact ⟨hap, r, hr, he.symm⟩
  · simp [hap] at h

theorem mkTry_none_of_ne {p : Char} {core rep} {a : Char} {t : List Char}
    (h : a ≠ p) : mkTry p core rep (a :: t) = none := by
  simp [mkTry, h]

theorem mkTry_none_core {p : Char} {core rep} {t : List Char}
    (h : mkTry p core rep (p :: t) = none) : core t = none := by
  simp only [mkTry, if_pos rfl] at h
  cases hc : core t with
  | none => rfl
  | some r => rw [hc] at h; simp at h

theorem mkTry_some_core {p : Char} {core rep} {t r : List Char}
    (h : core t = some r) : mkTry p core rep (p :: t) = some (p :: rep, r) := by
  simp [mkTry, h]

/-!
The three core matchers of the rename patterns.
`dotCore s` embeds the part of `\.SNAKE\b` after the dot;
`brCore cl s` embeds `\s*SNAKE\s*CL` (with `CL` being `:` or a closing
brace) after an opening brace; `qCore q s` embeds `SNAKE<q>:` after an
opening quote `q`.
-/

def dotCore (s : List Char) (t : List Char) : Option (List Char) :=
  (stripPref s t).bind fun r => if bdOk r then some r else none

def brCore (closer : Char) (s : List Char) (t : List Char) : Option (List Char) :=
  (stripPref s (skipWS t)).bind fun r => expectCh closer (skipWS r)

def qCore (q : Char) (s : List Char) (t : List Char) : Option (List Char) :=
  (stripPref s t).bind fun r => (expectCh q r).bind fun r2 => expectCh ':' r2

theorem dotCore_le (s : List Char) : CoreLe (dotCore s) := by
  intro t r h
  simp only [dotCore, Option.bind_eq_some] at h
  obtain ⟨r1, h1, h2⟩ := h
  by_cases hb : bdOk r1
  · simp only [if_pos hb, Option.some.injEq] at h2
    subst h2
    exact stripPref_length h1
  · simp [hb] at h2

theorem dotCore_suf (s : List Char) : CoreSuf (dotCore s) := by
  intro t r h
  simp only [dotCore, Option.bind_eq_some] at h
  obtain ⟨r1, h1, h2⟩ := h
  by_cases hb : bdOk r1
  · simp only [if_pos hb, Option.some.injEq] at h2
    subst h2
    exact stripPref_suffix h1
  · simp [hb] at h2

theorem dotCore_bd {s t r : List Char} (h : dotCore s t = some r) : bdOk r = true := by
  simp only [dotCore, Option.bind_eq_some] at h
  obtain ⟨r1, h1, h2⟩ := h
  by_cases hb : bdOk r1
  · simp only [if_pos hb, Option.some.injEq] at h2
    subst h2
    exact hb
  · simp [hb] at h2

theorem brCore_le (closer : Char) (s : List Char) : CoreLe (brCore closer s) := by
  intro t r h
  simp only [brCore, Option.bind_eq_some] at h
  obtain ⟨r1, h1, h2⟩ := h
  have l1 := stripPref_length h1
  have l2 := skipWS_length t
  have l3 := expectCh_length h2
  have l4 := skipWS_length r1
  omega

theorem brCore_suf (closer : Char) (s : List Char) : CoreSuf (brCore closer s) := by
  intro t r h
  simp only [brCore, Option.bind_eq_some] at h
  obtain ⟨r1, h1, h2⟩ := h
  exact ((expectCh_suffix h2).trans (skipWS_suffix r1)).trans
    ((stripPref_suffix h1).trans (skipWS_suffix t))

theorem qCore_le (q : Char) (s : List Char) : CoreLe (qCore q s) := by
  intro t r h
  simp only [qCore, Option.bind_eq_some] at h
  obtain ⟨r1, h1, r2, h2, h3⟩ := h
  have l1 := stripPref_length h1
  have l2 := expectCh_length h2
  have l3 := expectCh_length h3
  omega

theorem qCore_suf (q : Char) (s : List Char) : CoreSuf (qCore q s) := by
  intro t r h
  simp only [qCore, Option.bind_eq_some] at h
  obtain ⟨r1, h1, r2, h2, h3⟩ := h
  exact ((expectCh_suffix h3).trans (expectCh_suffix h2)).trans (stripPref_suffix h1)

/-!
The five substitutions of one mapping entry of `convert_file`, in the
order the script applies them.  Replacement texts follow the script:
`.CAMEL`, `{CAMEL:`, `{CAMEL}`, `'CAMEL':`, `"CAMEL":` (the brace forms do
not restore the whitespace the match consumed).
-/

def dotTry (s c : List Char) : List Char → Option (List Char × List Char) :=
  mkTry '.' (dotCore s) c

def brColonTry (s c : List Char) : List Char → Option (List Char × List Char) :=
  mkTry '\x7b' (brCore ':' s) (c ++ [':'])

def brCloseTry (s c : List Char) : List Char → Option (List Char × List Char) :=
  mkTry '\x7b' (brCore '\x7d' s) (c ++ ['\x7d'])

def sqTry (s c : List Char) : List Char → Option (List Char × List Char) :=
  mkTry '\'' (qCore '\'' s) (c ++ ['\'', ':'])

def dqTry (s c : List Char) : List Char → Option (List Char × List Char) :=
  mkTry '"' (qCore '"' s) (c ++ ['"', ':'])

/-- One mapping entry of `convert_file`: apply the five patterns in source
order, each one rewriting the output of the previous one; the entry's
occurrence count is the sum of the five match counts. -/
def applyEntry (s c t : List Char) : List Char × Nat :=
  let p1 := rs (dotTry s c) t
  let p2 := rs (brColonTry s c) p1.1
  let p3 := rs (brCloseTry s c) p2.1
  let p4 := rs (sqTry s c) p3.1
  let p5 := rs (dqTry s c) p4.1
  (p5.1, p1.2 + p2.2 + p3.2 + p4.2 + p5.2)

/-- The mapping loop of `convert_file`: entries in mapping order, each
feeding its output text to the next; `converted_count` accumulates an
entry's total only when it is positive. -/
def convertFold : List (List Char × List Char) → List Char → List Char × Nat
  | [], t => (t, 0)
  | (s, c) :: m, t =>
    let p := applyEntry s c t
    let q := convertFold m p.1
    (q.1, (if 0 < p.2 then p.2 else 0) + q.2)

/-- The converted text of `convert_file`. -/
def convertText (m : List (List Char × List Char)) (t : List Char) : List Char :=
  (convertFold m t).1

/-- The total occurrence count accumulated by `convert_file`. -/
def convertCount (m : List (List Char × List Char)) (t : List Char) : Nat :=
  (convertFold m t).2

/-- Whether `convert_file` writes the file back: only on a genuine change. -/
def convertWrites (m : List (List Char × List Char)) (t : List Char) : Bool :=
  decide (convertText m t ≠ t)

/-- The value `convert_file` returns: the count if the text changed, else 0. -/
def convertRet (m : List (List Char × List Char)) (t : List Char) : Nat :=
  if convertText m t = t then 0 else convertCount m t

/-- Position-wise occurrence detector for a single-trigger pattern: true
iff some suffix of the text starts with the trigger followed by a core
match.  This is exactly the condition under which the corresponding
substitution fires at least once. -/
def occP (p : Char) (core : List Char → Option (List Char)) : List Char → Bool
  | [] => false
  | a :: t => (decide (a = p) && (core t).isSome) || occP p core t

theorem word_not_ws {ch : Char} (h : isWord ch = true) : isWS ch = false := by
  simp only [isWS, Bool.or_eq_false_iff, decide_eq_false_iff_not]
  refine ⟨⟨⟨⟨⟨?_, ?_⟩, ?_⟩, ?_⟩, ?_⟩, ?_⟩ <;>
    (intro he; subst he; simp [isWord, Char.isAlphanum, Char.isAlpha,
      Char.isLower, Char.isUpper, Char.isDigit] at h)

theorem occP_false_cons {p : Char} {core} {a : Char} {t : List Char} :
    occP p core (a :: t) = false ↔
      (a ≠ p ∨ (core t).isSome = false) ∧ occP p core t = false := by
  simp only [occP, Bool.or_eq_false_iff, Bool.and_eq_false_iff,
    decide_eq_false_iff_not, Bool.not_eq_true]

theorem occP_suffix_false {p : Char} {core} {u t : List Char} (hsuf : u.IsSuffix t)
    (h : occP p core t = false) : occP p core u = false := by
  obtain ⟨v, rfl⟩ := hsuf
  induction v with
  | nil => simpa using h
  | cons b v ih =>
    rw [List.cons_append, occP_false_cons] at h
    exact ih h.2

theorem occP_append_false {p : Char} {core} {c z : List Char}
    (hc : ∀ ch ∈ c, isWord ch = true) (hp : isWord p = false)
    (hz : occP p core z = false) : occP p core (c ++ z) = false := by
  induction c with
  | nil => simpa using hz
  | cons b c ih =>
    have hb : isWord b = true := hc b (by simp)
    have hbp : b ≠ p := by
      intro he
      rw [he, hp] at hb
      exact Bool.false_ne_true hb
    rw [List.cons_append, occP_false_cons]
    exact ⟨Or.inl hbp, ih (fun ch hch => hc ch (by simp [hch]))⟩

theorem rs_mk_cons_notp {p : Char} {core rep} (hle : CoreLe core) {a : Char}
    {t : List Char} (hne : a ≠ p) :
    rs (mkTry p core rep) (a :: t) =
      (a :: (rs (mkTry p core rep) t).1, (rs (mkTry p core rep) t).2) :=
  rs_cons_none _ (mkTry_shrinks p core rep hle) (mkTry_none_of_ne hne)

theorem rs_mk_cons_word {p : Char} {core rep} (hle : CoreLe core) {a : Char}
    {t : List Char} (hp : isWord p = false) (ha : isWord a = true) :
    rs (mkTry p core rep) (a :: t) =
      (a :: (rs (mkTry p core rep) t).1, (rs (mkTry p core rep) t).2) := by
  refine rs_mk_cons_notp hle ?_
  intro he
  rw [he, hp] at ha
  exact Bool.false_ne_true ha

theorem rs_mk_head {p : Char} {core rep} (hle : CoreLe core) :
    ∀ t : List Char, (rs (mkTry p core rep) t).1.head? = t.head? := by
  intro t
  cases t with
  | nil => rfl
  | cons a t =>
    cases htr : mkTry p core rep (a :: t) with
    | some pr =>
      obtain ⟨rep2, rest⟩ := pr
      obtain ⟨hap, r, hr, he⟩ := mkTry_some htr
      subst hap
      injection he with h1 h2
      subst h1
      subst h2
      rw [rs_cons_some _ (mkTry_shrinks a core rep hle) htr]
      rfl
    | none =>
      rw [rs_cons_none _ (mkTry_shrinks p core rep hle) htr]
      rfl

theorem skipWS_of_head_not_ws {l : List Char} {a : Char} (hh : l.head? = some a)
    (ha : isWS a = false) : skipWS l = l := by
  cases l with
  | nil => simp at hh
  | cons b t =>
    simp only [List.head?_cons, Option.some.injEq] at hh
    subst hh
    exact skipWS_cons_of_not_ws (by simp [ha]) t

theorem bdOk_congr {u v : List Char} (h : u.head? = v.head?) : bdOk u = bdOk v := by
  cases u with
  | nil =>
    cases v with
    | nil => rfl
    | cons b w => simp at h
  | cons a u =>
    cases v with
    | nil => simp at h
    | cons b w =>
      simp only [List.head?_cons, Option.some.injEq] at h
      subst h
      rfl

theorem rs_mk_skipWS {p : Char} {core rep} (hle : CoreLe core)
    (hpw : isWS p = false) :
    ∀ t : List Char,
      skipWS (rs (mkTry p core rep) t).1 = (rs (mkTry p core rep) (skipWS t)).1 := by
  intro t
  induction t with
  | nil => rfl
  | cons a t ih =>
    by_cases ha : isWS a = true
    · have hne : a ≠ p := by
        intro he
        rw [he, hpw] at ha
        exact Bool.false_ne_true ha
      rw [rs_mk_cons_notp hle hne, skipWS_cons_of_ws ha t]
      show skipWS (a :: (rs (mkTry p core rep) t).1) = _
      rw [skipWS_cons_of_ws ha]
      exact ih
    · rw [skipWS_cons_of_not_ws (by simpa using ha) t]
      refine skipWS_of_head_not_ws ?_ (by simpa using ha)
      rw [rs_mk_head hle]
      rfl

theorem stripPref_rs_reflect {p : Char} {core rep} (hle : CoreLe core)
    (hp : isWord p = false) :
    ∀ (v t u : List Char), (∀ ch ∈ v, isWord ch = true) →
      stripPref v (rs (mkTry p core rep) t).1 = some u →
      ∃ w, stripPref v t = some w ∧ u = (rs (mkTry p core rep) w).1 := by
  intro v
  induction v with
  | nil =>
    intro t u _ h
    simp only [stripPref, Option.some.injEq] at h
    exact ⟨t, rfl, h.symm⟩
  | cons b v ih =>
    intro t u hv h
    cases t with
    | nil =>
      rw [rs_nil] at h
      simp [stripPref] at h
    | cons a t =>
      have hb : isWord b = true := hv b (by simp)
      have hhd : (rs (mkTry p core rep) (a :: t)).1.head? = some a := by
        rw [rs_mk_head hle]
        rfl
      obtain ⟨X, hX⟩ : ∃ X, (rs (mkTry p core rep) (a :: t)).1 = a :: X := by
        cases hc : (rs (mkTry p core rep) (a :: t)).1 with
        | nil => rw [hc] at hhd; simp at hhd
        | cons a2 X =>
          rw [hc] at hhd
          simp only [List.head?_cons, Option.some.injEq] at hhd
          exact ⟨X, by rw [hhd]⟩
      rw [hX] at h
      simp only [stripPref] at h
      rcases eq_or_ne b a with hba | hba
      · subst hba
        have h2 : stripPref v X = some u := by simpa using h
        have hrs : rs (mkTry p core rep) (b :: t) =
            (b :: (rs (mkTry p core rep) t).1, (rs (mkTry p core rep) t).2) :=
          rs_mk_cons_word hle hp hb
        rw [hrs] at hX
        injection hX with _ hX2
        rw [← hX2] at h2
        obtain ⟨w, hw1, hw2⟩ := ih t u (fun ch hch => hv ch (by simp [hch])) h2
        refine ⟨w, ?_, hw2⟩
        simp only [stripPref, if_pos rfl]
        exact hw1
      · simp [hba] at h

theorem stripPref_cross :
    ∀ (c s out : List Char), '_' ∈ s → '_' ∉ c →
      (stripPref s (c ++ out)).isSome = true →
      ∃ s2, s2 ≠ [] ∧ (∀ ch ∈ s2, ch ∈ s) ∧ (stripPref s2 out).isSome = true := by
  intro c
  induction c with
  | nil =>
    intro s out hs _ h
    refine ⟨s, ?_, fun ch hch => hch, by simpa using h⟩
    intro he
    rw [he] at hs
    simp at hs
  | cons b c ih =>
    intro s out hs hc h
    cases s with
    | nil => simp at hs
    | cons a s =>
      rw [List.cons_append] at h
      simp only [stripPref] at h
      by_cases hab : a = b
      · subst hab
        simp only [if_pos rfl] at h
        have hs2 : '_' ∈ s := by
          rcases List.mem_cons.mp hs with he | hm
          · exfalso
            exact hc (by simp [← he])
          · exact hm
        obtain ⟨s2, h1, h2, h3⟩ := ih s out hs2 (fun hm => hc (by simp [hm])) h
        exact ⟨s2, h1, fun ch hch => by simp [h2 ch hch], h3⟩
      · simp [hab] at h

theorem expectCh_isSome_head {ch : Char} {l : List Char} :
    (expectCh ch l).isSome = true ↔ l.head? = some ch := by
  cases l with
  | nil => simp [expectCh]
  | cons a t =>
    simp only [expectCh, List.head?_cons, Option.some.injEq]
    by_cases hac : a = ch
    · simp [hac]
    · simp [hac, Ne.symm hac]

theorem dotCore_reflect {p : Char} {core rep} (hle : CoreLe core)
    (hp : isWord p = false) {s : List Char} (hs : ∀ ch ∈ s, isWord ch = true)
    (t : List Char)
    (h : (dotCore s (rs (mkTry p core rep) t).1).isSome = true) :
    (dotCore s t).isSome = true := by
  obtain ⟨r, hr⟩ := Option.isSome_iff_exists.mp h
  simp only [dotCore, Option.bind_eq_some] at hr
  obtain ⟨r1, h1, h2⟩ := hr
  obtain ⟨w, hw1, hw2⟩ := stripPref_rs_reflect hle hp s t r1 hs h1
  by_cases hb : bdOk r1 = true
  · have hbw : bdOk w = true := by
      rw [← hb, hw2]
      exact (bdOk_congr (rs_mk_head hle w)).symm
    simp [dotCore, hw1, hbw]
  · simp [hb] at h2

theorem brCore_reflect {p : Char} {core rep} (hle : CoreLe core)
    (hp : isWord p = false) (hpw : isWS p = false) {closer : Char}
    {s : List Char} (hs : ∀ ch ∈ s, isWord ch = true) (t : List Char)
    (h : (brCore closer s (rs (mkTry p core rep) t).1).isSome = true) :
    (brCore closer s t).isSome = true := by
  obtain ⟨r, hr⟩ := Option.isSome_iff_exists.mp h
  simp only [brCore, Option.bind_eq_some] at hr
  obtain ⟨r1, h1, h2⟩ := hr
  rw [rs_mk_skipWS hle hpw t] at h1
  obtain ⟨w, hw1, hw2⟩ := stripPref_rs_reflect hle hp s (skipWS t) r1 hs h1
  have hhead : (skipWS r1).head? = some closer := by
    rw [← expectCh_isSome_head]
    simp [h2]
  rw [hw2, rs_mk_skipWS hle hpw w, rs_mk_head hle] at hhead
  simp only [brCore, hw1, Option.some_bind]
  rw [expectCh_isSome_head]
  exact hhead

theorem qCore_reflect {p : Char} {core rep} (hle : CoreLe core)
    (hp : isWord p = false) {q : Char} {s : List Char}
    (hs : ∀ ch ∈ s, isWord ch = true)
    (hrep : ∃ w0 rep2, rep = w0 :: rep2 ∧ isWord w0 = true) (t : List Char)
    (h : (qCore q s (rs (mkTry p core rep) t).1).isSome = true) :
    (qCore q s t).isSome = true := by
  obtain ⟨r, hr⟩ := Option.isSome_iff_exists.mp h
  simp only [qCore, Option.bind_eq_some] at hr
  obtain ⟨r1, h1, r2, h2, h3⟩ := hr
  obtain ⟨w, hw1, hw2⟩ := stripPref_rs_reflect hle hp s t r1 hs h1
  have hr1 : r1 = q :: r2 := expectCh_some h2
  have hwh : w.head? = some q := by
    rw [← rs_mk_head hle w, ← hw2, hr1]
    rfl
  obtain ⟨w2, rfl⟩ : ∃ w2, w = q :: w2 := by
    cases w with
    | nil => simp at hwh
    | cons b w2 =>
      simp only [List.head?_cons, Option.some.injEq] at hwh
      exact ⟨w2, by rw [hwh]⟩
  cases htr : mkTry p core rep (q :: w2) with
  | some pr =>
    obtain ⟨repA, restA⟩ := pr
    obtain ⟨hqp, rr, hrr, hpr⟩ := mkTry_some htr
    injection hpr with hpr1 hpr2
    exfalso
    obtain ⟨w0, rep2, hrepe, hw0⟩ := hrep
    have htr2 : mkTry p core rep (q :: w2) = some (p :: rep, rr) := by
      rw [htr, hpr1, hpr2]
    have hout : (rs (mkTry p core rep) (q :: w2)).1 =
        (p :: rep) ++ (rs (mkTry p core rep) rr).1 := by
      rw [rs_cons_some _ (mkTry_shrinks p core rep hle) htr2]
    have hr2e : r2 = rep ++ (rs (mkTry p core rep) rr).1 := by
      rw [← hw2, hr1] at hout
      injection hout with _ h
    have hr2c : r2 = ':' :: r := expectCh_some h3
    rw [hrepe] at hr2e
    rw [hr2c] at hr2e
    injection hr2e with hcol2 _
    rw [← hcol2] at hw0
    exact absurd hw0 (by decide)
  | none =>
    have hout : (rs (mkTry p core rep) (q :: w2)).1 =
        q :: (rs (mkTry p core rep) w2).1 := by
      rw [rs_cons_none _ (mkTry_shrinks p core rep hle) htr]
    rw [← hw2, hr1] at hout
    have hr2 : r2 = (rs (mkTry p core rep) w2).1 := by
      injection hout with _ h
    have hcol : w2.head? = some ':' := by
      rw [← rs_mk_head hle w2, ← hr2, ← expectCh_isSome_head]
      simp [h3]
    obtain ⟨w3, hw3⟩ : ∃ w3, w2 = ':' :: w3 := by
      cases w2 with
      | nil => simp at hcol
      | cons b w3 =>
        simp only [List.head?_cons, Option.some.injEq] at hcol
        exact ⟨w3, by rw [hcol]⟩
    simp [qCore, hw1, expectCh, hw3]

theorem dotCore_strip {s : List Char} (hs0 : s ≠ [])
    (hsw : ∀ ch ∈ s, isWord ch = true) :
    ∀ u, ((dotCore s u).isSome = true → (stripPref s (skipWS u)).isSome = true) := by
  intro u h
  obtain ⟨r, hr⟩ := Option.isSome_iff_exists.mp h
  simp only [dotCore, Option.bind_eq_some] at hr
  obtain ⟨r1, h1, _⟩ := hr
  have hu : u = s ++ r1 := stripPref_eq_append _ _ _ h1
  cases s with
  | nil => exact absurd rfl hs0
  | cons a s2 =>
    have haw : isWord a = true := hsw a (by simp)
    rw [hu, List.cons_append,
      skipWS_cons_of_not_ws (by simp [word_not_ws haw]) _,
      ← List.cons_append, stripPref_self]
    rfl

theorem brCore_strip {closer : Char} {s : List Char} :
    ∀ u, ((brCore closer s u).isSome = true →
      (stripPref s (skipWS u)).isSome = true) := by
  intro u h
  obtain ⟨r, hr⟩ := Option.isSome_iff_exists.mp h
  simp only [brCore, Option.bind_eq_some] at hr
  obtain ⟨r1, h1, _⟩ := hr
  simp [h1]

theorem qCore_strip {q : Char} {s : List Char} (hs0 : s ≠ [])
    (hsw : ∀ ch ∈ s, isWord ch = true) :
    ∀ u, ((qCore q s u).isSome = true → (stripPref s (skipWS u)).isSome = true) := by
  intro u h
  obtain ⟨r, hr⟩ := Option.isSome_iff_exists.mp h
  simp only [qCore, Option.bind_eq_some] at hr
  obtain ⟨r1, h1, _⟩ := hr
  have hu : u = s ++ r1 := stripPref_eq_append _ _ _ h1
  cases s with
  | nil => exact absurd rfl hs0
  | cons a s2 =>
    have haw : isWord a = true := hsw a (by simp)
    rw [hu, List.cons_append,
      skipWS_cons_of_not_ws (by simp [word_not_ws haw]) _,
      ← List.cons_append, stripPref_self]
    rfl

theorem isSome_eq_true_of_ne_false {o : Option (List Char)}
    (h : ¬ o.isSome = false) : o.isSome = true := by
  cases ho : o.isSome
  · exact absurd ho h
  · rfl

theorem skipWS_word_append {c : List Char} (hcne : c ≠ [])
    (hcw : ∀ ch ∈ c, isWord ch = true) (z : List Char) :
    skipWS (c ++ z) = c ++ z := by
  cases c with
  | nil => exact absurd rfl hcne
  | cons b c2 =>
    rw [List.cons_append]
    exact skipWS_cons_of_not_ws
      (by simp [word_not_ws (hcw b (by simp))]) _

theorem stripPref_head_ne {s2 : List Char} {b : Char} {z : List Char}
    (hs2 : s2 ≠ []) (hword : ∀ ch ∈ s2, isWord ch = true)
    (hb : isWord b = false) : (stripPref s2 (b :: z)).isSome = false := by
  cases s2 with
  | nil => exact absurd rfl hs2
  | cons a s3 =>
    have haw : isWord a = true := hword a (by simp)
    have hne : a ≠ b := by
      intro he
      rw [he, hb] at haw
      exact Bool.false_ne_true haw
    simp [stripPref, hne]

theorem cross_blocked {c z sY : List Char}
    (hcw : ∀ ch ∈ c, isWord ch = true) (hcu : '_' ∉ c) (hcne : c ≠ [])
    (hsw : ∀ ch ∈ sY, isWord ch = true) (hsu : '_' ∈ sY)
    (hz : ∀ s2 : List Char, s2 ≠ [] → (∀ ch ∈ s2, isWord ch = true) →
      (stripPref s2 z).isSome = false) :
    (stripPref sY (skipWS (c ++ z))).isSome = false := by
  rw [skipWS_word_append hcne hcw z]
  cases hval : (stripPref sY (c ++ z)).isSome
  · rfl
  · exfalso
    obtain ⟨s2, h1, h2, h3⟩ := stripPref_cross c sY z hsu hcu hval
    have hsw2 : ∀ ch ∈ s2, isWord ch = true := fun ch hch => hsw ch (h2 ch hch)
    rw [hz s2 h1 hsw2] at h3
    exact Bool.false_ne_true h3

/-- Junction, dot-shaped replacement: after a match of `\.SNAKE\b` the
output continues with `.CAMEL` followed by text whose head satisfied the
word boundary; no detector occurrence fits inside this span. -/
theorem junc_plain {pX : Char} {c out : List Char} {pY : Char}
    {coreY : List Char → Option (List Char)} {sY : List Char}
    (hcw : ∀ ch ∈ c, isWord ch = true) (hcu : '_' ∉ c) (hcne : c ≠ [])
    (hpY : isWord pY = false)
    (hY1 : ∀ u, (coreY u).isSome = true → (stripPref sY (skipWS u)).isSome = true)
    (hsw : ∀ ch ∈ sY, isWord ch = true) (hsu : '_' ∈ sY)
    (hbd : bdOk out = true) (hocc : occP pY coreY out = false) :
    occP pY coreY (pX :: (c ++ out)) = false := by
  refine occP_false_cons.mpr ⟨Or.inr ?_, occP_append_false hcw hpY hocc⟩
  cases hval : (coreY (c ++ out)).isSome
  · rfl
  · exfalso
    have h1 := hY1 _ hval
    have h2 : (stripPref sY (skipWS (c ++ out))).isSome = false := by
      refine cross_blocked hcw hcu hcne hsw hsu ?_
      intro s2 hs2 hword
      cases out with
      | nil =>
        cases s2 with
        | nil => exact absurd rfl hs2
        | cons a s3 => simp [stripPref]
      | cons b z =>
        have hb : isWord b = false := by
          simpa [bdOk] using hbd
        exact stripPref_head_ne hs2 hword hb
    rw [h2] at h1
    exact Bool.false_ne_true h1

/-- Junction, brace-shaped replacement `{CAMEL:` or `{CAMEL}`. -/
theorem junc_closer {pX closer : Char} {c out : List Char} {pY : Char}
    {coreY : List Char → Option (List Char)} {sY : List Char}
    (hcw : ∀ ch ∈ c, isWord ch = true) (hcu : '_' ∉ c) (hcne : c ≠ [])
    (hpY : isWord pY = false)
    (hY1 : ∀ u, (coreY u).isSome = true → (stripPref sY (skipWS u)).isSome = true)
    (hsw : ∀ ch ∈ sY, isWord ch = true) (hsu : '_' ∈ sY)
    (hclw : isWord closer = false) (hclY : closer ≠ pY)
    (hocc : occP pY coreY out = false) :
    occP pY coreY (pX :: (c ++ closer :: out)) = false := by
  have htail : occP pY coreY (closer :: out) = false :=
    occP_false_cons.mpr ⟨Or.inl hclY, hocc⟩
  refine occP_false_cons.mpr ⟨Or.inr ?_, occP_append_false hcw hpY htail⟩
  cases hval : (coreY (c ++ closer :: out)).isSome
  · rfl
  · exfalso
    have h1 := hY1 _ hval
    have h2 : (stripPref sY (skipWS (c ++ closer :: out))).isSome = false := by
      refine cross_blocked hcw hcu hcne hsw hsu ?_
      intro s2 hs2 hword
      exact stripPref_head_ne hs2 hword hclw
    rw [h2] at h1
    exact Bool.false_ne_true h1

/-- Junction, quote-shaped replacement `'CAMEL':` or quoted with `"`. -/
theorem junc_quote {pX q : Char} {c out : List Char} {pY : Char}
    {coreY : List Char → Option (List Char)} {sY : List Char}
    (hcw : ∀ ch ∈ c, isWord ch = true) (hcu : '_' ∉ c) (hcne : c ≠ [])
    (hpY : isWord pY = false)
    (hY1 : ∀ u, (coreY u).isSome = true → (stripPref sY (skipWS u)).isSome = true)
    (hsw : ∀ ch ∈ sY, isWord ch = true) (hsu : '_' ∈ sY)
    (hqw : isWord q = false) (hcolY : (':' : Char) ≠ pY)
    (hocc : occP pY coreY out = false) :
    occP pY coreY (pX :: (c ++ q :: ':' :: out)) = false := by
  have hsne : sY ≠ [] := by
    intro he
    rw [he] at hsu
    simp at hsu
  have htail2 : occP pY coreY (':' :: out) = false :=
    occP_false_cons.mpr ⟨Or.inl hcolY, hocc⟩
  have htail : occP pY coreY (q :: ':' :: out) = false := by
    refine occP_false_cons.mpr ⟨Or.inr ?_, htail2⟩
    cases hval : (coreY (':' :: out)).isSome
    · rfl
    · exfalso
      have h1 := hY1 _ hval
      have hnws : isWS ':' = false := by decide
      rw [skipWS_cons_of_not_ws (by simp [hnws]) out] at h1
      rw [stripPref_head_ne hsne hsw (by decide)] at h1
      exact Bool.false_ne_true h1
  refine occP_false_cons.mpr ⟨Or.inr ?_, occP_append_false hcw hpY htail⟩
  cases hval : (coreY (c ++ q :: ':' :: out)).isSome
  · rfl
  · exfalso
    have h1 := hY1 _ hval
    have h2 : (stripPref sY (skipWS (c ++ q :: ':' :: out))).isSome = false := by
      refine cross_blocked hcw hcu hcne hsw hsu ?_
      intro s2 hs2 hword
      exact stripPref_head_ne hs2 hword hqw
    rw [h2] at h1
    exact Bool.false_ne_true h1

/-- Master lemma: the output of a single-trigger substitution contains no
occurrence of a detector pattern, provided the input contained none (or
the detector is the substitution's own pattern), occurrences reflect from
output to input, and no occurrence fits a replacement junction. -/
theorem occP_rs_master {p : Char} {core : List Char → Option (List Char)}
    {rep : List Char} {pY : Char} {coreY : List Char → Option (List Char)}
    (hle : CoreLe core) (hsuf : CoreSuf core)
    (hrefl : ∀ u, (coreY (rs (mkTry p core rep) u).1).isSome = true →
      (coreY u).isSome = true)
    (hjunc : ∀ t2 rest, core t2 = some rest →
      ∀ out, out.head? = rest.head? → occP pY coreY out = false →
        occP pY coreY (p :: (rep ++ out)) = false) :
    ∀ t, (occP pY coreY t = false ∨ (pY = p ∧ coreY = core)) →
      occP pY coreY (rs (mkTry p core rep) t).1 = false := by
  have main : ∀ n t, t.length ≤ n →
      (occP pY coreY t = false ∨ (pY = p ∧ coreY = core)) →
      occP pY coreY (rs (mkTry p core rep) t).1 = false := by
    intro n
    induction n using Nat.strong_induction_on with
    | _ n ih =>
      intro t ht hbase
      cases t with
      | nil =>
        rw [rs_nil]
        rfl
      | cons a t2 =>
        simp only [List.length_cons] at ht
        cases htr : mkTry p core rep (a :: t2) with
        | some pr =>
          obtain ⟨repA, restA⟩ := pr
          obtain ⟨hap, r, hr, he⟩ := mkTry_some htr
          injection he with he1 he2
          subst hap
          have htr2 : mkTry a core rep (a :: t2) = some (a :: rep, r) := by
            rw [htr, he1, he2]
          rw [rs_cons_some _ (mkTry_shrinks a core rep hle) htr2]
          show occP pY coreY ((a :: rep) ++ (rs (mkTry a core rep) r).1) = false
          rw [List.cons_append]
          have hocc_r : occP pY coreY (rs (mkTry a core rep) r).1 = false := by
            have hlen : r.length ≤ t2.length := hle t2 r hr
            refine ih t2.length (by omega) r (by omega) ?_
            rcases hbase with hb | hb
            · refine Or.inl (occP_suffix_false ?_ hb)
              exact (hsuf t2 r hr).trans ⟨[a], rfl⟩
            · exact Or.inr hb
          exact hjunc t2 r hr _ (rs_mk_head hle r) hocc_r
        | none =>
          rw [rs_cons_none _ (mkTry_shrinks p core rep hle) htr]
          have htail : occP pY coreY (rs (mkTry p core rep) t2).1 = false := by
            refine ih t2.length (by omega) t2 (by omega) ?_
            rcases hbase with hb | hb
            · exact Or.inl (occP_false_cons.mp hb).2
            · exact Or.inr hb
          refine occP_false_cons.mpr ⟨?_, htail⟩
          by_cases hay : a = pY
          · refine Or.inr ?_
            cases hval : (coreY (rs (mkTry p core rep) t2).1).isSome
            · rfl
            · exfalso
              have hsome := hrefl t2 hval
              rcases hbase with hb | hb
              · rcases (occP_false_cons.mp hb).1 with hne | hns
                · exact hne hay
                · rw [hns] at hsome
                  exact Bool.false_ne_true hsome
              · obtain ⟨hpYp, hcc⟩ := hb
                have hap2 : a = p := by rw [hay, hpYp]
                rw [hap2] at htr
                have hcn : core t2 = none := mkTry_none_core htr
                rw [hcc, hcn] at hsome
                exact Bool.false_ne_true hsome
          · exact Or.inl hay
  exact fun t => main t.length t (Nat.le_refl _)

/-- A substitution whose pattern has no occurrence in the text leaves the
text unchanged and counts zero matches. -/
theorem rs_of_occP_false {p : Char} {core : List Char → Option (List Char)}
    {rep : List Char} (hle : CoreLe core) :
    ∀ t, occP p core t = false → rs (mkTry p core rep) t = (t, 0) := by
  intro t
  induction t with
  | nil => intro _; rfl
  | cons a t ih =>
    intro h
    obtain ⟨hh, htail⟩ := occP_false_cons.mp h
    have htr : mkTry p core rep (a :: t) = none := by
      by_cases hap : a = p
      · subst hap
        rcases hh with hne | hns
        · exact absurd rfl hne
        · have hcn : core t = none := by
            cases hc : core t with
            | none => rfl
            | some r =>
              rw [hc] at hns
              simp at hns
          simp [mkTry, hcn]
      · exact mkTry_none_of_ne hap
    rw [rs_cons_none _ (mkTry_shrinks p core rep hle) htr, ih htail]

/-- A snake_case mapping key: word characters only, containing an underscore. -/
def WfKey (s : List Char) : Prop :=
  (∀ ch ∈ s, isWord ch = true) ∧ '_' ∈ s

/-- A camelCase mapping value: nonempty, word characters only, no underscore. -/
def WfVal (c : List Char) : Prop :=
  c ≠ [] ∧ (∀ ch ∈ c, isWord ch = true) ∧ '_' ∉ c

/-- A wellformed snake-to-camel mapping. -/
def WfMap (m : List (List Char × List Char)) : Prop :=
  ∀ pr ∈ m, WfKey pr.1 ∧ WfVal pr.2

theorem WfKey.ne_nil {s : List Char} (h : WfKey s) : s ≠ [] := by
  intro he
  have h2 := h.2
  rw [he] at h2
  simp at h2

/-- Occurrence of `\.SNAKE\b` (pattern 1 of convert_file). -/
def occDot (s t : List Char) : Bool := occP '.' (dotCore s) t

/-- Occurrence of an object-literal key context (pattern 2). -/
def occBrColon (s t : List Char) : Bool := occP '\x7b' (brCore ':' s) t

/-- Occurrence of a destructuring context (pattern 3). -/
def occBrClose (s t : List Char) : Bool := occP '\x7b' (brCore '\x7d' s) t

/-- Occurrence of a single-quoted key context (pattern 4). -/
def occSq (s t : List Char) : Bool := occP '\'' (qCore '\'' s) t

/-- Occurrence of a double-quoted key context (pattern 5). -/
def occDq (s t : List Char) : Bool := occP '"' (qCore '"' s) t

/-- The spelling `s` occurs in none of the five recognized pattern contexts. -/
def NoOcc (s t : List Char) : Prop :=
  occDot s t = false ∧ occBrColon s t = false ∧ occBrClose s t = false ∧
    occSq s t = false ∧ occDq s t = false

theorem val_head_word {c : List Char} (hv : WfVal c) :
    ∃ w0 rep2, c = w0 :: rep2 ∧ isWord w0 = true := by
  cases c with
  | nil => exact absurd rfl hv.1
  | cons b c2 => exact ⟨b, c2, rfl, hv.2.1 b (by simp)⟩

theorem rep_head_word {c : List Char} (tail : List Char) (hv : WfVal c) :
    ∃ w0 rep2, c ++ tail = w0 :: rep2 ∧ isWord w0 = true := by
  cases c with
  | nil => exact absurd rfl hv.1
  | cons b c2 => exact ⟨b, c2 ++ tail, by simp, hv.2.1 b (by simp)⟩

/-- Pattern-1 stage of the master lemma. -/
theorem dotSub_master {s c : List Char} (hv : WfVal c)
    {pY : Char} {coreY : List Char → Option (List Char)} {sY : List Char}
    (hpY : isWord pY = false) (hkY : WfKey sY)
    (hY1 : ∀ u, (coreY u).isSome = true → (stripPref sY (skipWS u)).isSome = true)
    (hrefl : ∀ u, (coreY (rs (mkTry '.' (dotCore s) c) u).1).isSome = true →
      (coreY u).isSome = true)
    (t : List Char)
    (hbase : occP pY coreY t = false ∨ (pY = '.' ∧ coreY = dotCore s)) :
    occP pY coreY (rs (mkTry '.' (dotCore s) c) t).1 = false := by
  refine occP_rs_master (dotCore_le s) (dotCore_suf s) hrefl ?_ t hbase
  intro t2 rest hr out hhead hocc
  have hbd : bdOk out = true := by
    rw [bdOk_congr hhead]
    exact dotCore_bd hr
  exact junc_plain hv.2.1 hv.2.2 hv.1 hpY hY1 hkY.1 hkY.2 hbd hocc

/-- Pattern-2 and pattern-3 stage of the master lemma. -/
theorem brSub_master {closer : Char} {s c : List Char} (hv : WfVal c)
    (hclw : isWord closer = false)
    {pY : Char} {coreY : List Char → Option (List Char)} {sY : List Char}
    (hpY : isWord pY = false) (hclY : closer ≠ pY) (hkY : WfKey sY)
    (hY1 : ∀ u, (coreY u).isSome = true → (stripPref sY (skipWS u)).isSome = true)
    (hrefl : ∀ u,
      (coreY (rs (mkTry '\x7b' (brCore closer s) (c ++ [closer])) u).1).isSome = true →
      (coreY u).isSome = true)
    (t : List Char)
    (hbase : occP pY coreY t = false ∨ (pY = '\x7b' ∧ coreY = brCore closer s)) :
    occP pY coreY (rs (mkTry '\x7b' (brCore closer s) (c ++ [closer])) t).1 = false := by
  refine occP_rs_master (brCore_le closer s) (brCore_suf closer s) hrefl ?_ t hbase
  intro t2 rest hr out hhead hocc
  show occP pY coreY ('\x7b' :: ((c ++ [closer]) ++ out)) = false
  rw [List.append_assoc, List.singleton_append]
  exact junc_closer hv.2.1 hv.2.2 hv.1 hpY hY1 hkY.1 hkY.2 hclw hclY hocc

/-- Pattern-4 and pattern-5 stage of the master lemma. -/
theorem qSub_master {q : Char} {s c : List Char} (hv : WfVal c)
    (hqw : isWord q = false)
    {pY : Char} {coreY : List Char → Option (List Char)} {sY : List Char}
    (hpY : isWord pY = false) (hcolY : (':' : Char) ≠ pY) (hkY : WfKey sY)
    (hY1 : ∀ u, (coreY u).isSome = true → (stripPref sY (skipWS u)).isSome = true)
    (hrefl : ∀ u,
      (coreY (rs (mkTry q (qCore q s) (c ++ [q, ':'])) u).1).isSome = true →
      (coreY u).isSome = true)
    (t : List Char)
    (hbase : occP pY coreY t = false ∨ (pY = q ∧ coreY = qCore q s)) :
    occP pY coreY (rs (mkTry q (qCore q s) (c ++ [q, ':'])) t).1 = false := by
  refine occP_rs_master (qCore_le q s) (qCore_suf q s) hrefl ?_ t hbase
  intro t2 rest hr out hhead hocc
  show occP pY coreY (q :: ((c ++ [q, ':']) ++ out)) = false
  rw [List.append_assoc]
  simp only [List.cons_append, List.nil_append]
  exact junc_quote hv.2.1 hv.2.2 hv.1 hpY hY1 hkY.1 hkY.2 hqw hcolY hocc

theorem presDtDt {s c sA : List Char} (hv : WfVal c) (hkA : WfKey sA)
    (u : List Char) (h : occDot sA u = false) :
    occDot sA (rs (dotTry s c) u).1 = false := by
  show occP '.' (dotCore sA) (rs (mkTry '.' (dotCore s) c) u).1 = false
  refine dotSub_master hv (by decide) hkA (dotCore_strip (WfKey.ne_nil hkA) hkA.1) ?_ u (Or.inl h)
  intro u2 hu2
  exact dotCore_reflect (dotCore_le s) (by decide) hkA.1 u2 hu2

theorem presBcDt {s c sA : List Char} (hv : WfVal c) (hkA : WfKey sA)
    (u : List Char) (h : occBrColon sA u = false) :
    occBrColon sA (rs (dotTry s c) u).1 = false := by
  show occP '\x7b' (brCore ':' sA) (rs (mkTry '.' (dotCore s) c) u).1 = false
  refine dotSub_master hv (by decide) hkA (brCore_strip) ?_ u (Or.inl h)
  intro u2 hu2
  exact brCore_reflect (dotCore_le s) (by decide) (by decide) hkA.1 u2 hu2

theorem presBzDt {s c sA : List Char} (hv : WfVal c) (hkA : WfKey sA)
    (u : List Char) (h : occBrClose sA u = false) :
    occBrClose sA (rs (dotTry s c) u).1 = false := by
  show occP '\x7b' (brCore '\x7d' sA) (rs (mkTry '.' (dotCore s) c) u).1 = false
  refine dotSub_master hv (by decide) hkA (brCore_strip) ?_ u (Or.inl h)
  intro u2 hu2
  exact brCore_reflect (dotCore_le s) (by decide) (by decide) hkA.1 u2 hu2

theorem presSqDt {s c sA : List Char} (hv : WfVal c) (hkA : WfKey sA)
    (u : List Char) (h : occSq sA u = false) :
    occSq sA (rs (dotTry s c) u).1 = false := by
  show occP '\'' (qCore '\'' sA) (rs (mkTry '.' (dotCore s) c) u).1 = false
  refine dotSub_master hv (by decide) hkA (qCore_strip (WfKey.ne_nil hkA) hkA.1) ?_ u (Or.inl h)
  intro u2 hu2
  exact qCore_reflect (dotCore_le s) (by decide) hkA.1 (val_head_word hv) u2 hu2

theorem presDqDt {s c sA : List Char} (hv : WfVal c) (hkA : WfKey sA)
    (u : List Char) (h : occDq sA u = false) :
    occDq sA (rs (dotTry s c) u).1 = false := by
  show occP '"' (qCore '"' sA) (rs (mkTry '.' (dotCore s) c) u).1 = false
  refine dotSub_master hv (by decide) hkA (qCore_strip (WfKey.ne_nil hkA) hkA.1) ?_ u (Or.inl h)
  intro u2 hu2
  exact qCore_reflect (dotCore_le s) (by decide) hkA.1 (val_head_word hv) u2 hu2

theorem presDtBc {s c sA : List Char} (hv : WfVal c) (hkA : WfKey sA)
    (u : List Char) (h : occDot sA u = false) :
    occDot sA (rs (brColonTry s c) u).1 = false := by
  show occP '.' (dotCore sA) (rs (mkTry '\x7b' (brCore ':' s) (c ++ [':'])) u).1 = false
  refine brSub_master hv (by decide) (by decide) (by decide) hkA (dotCore_strip (WfKey.ne_nil hkA) hkA.1) ?_ u (Or.inl h)
  intro u2 hu2
  exact dotCore_reflect (brCore_le ':' s) (by decide) hkA.1 u2 hu2

theorem presBcBc {s c sA : List Char} (hv : WfVal c) (hkA : WfKey sA)
    (u : List Char) (h : occBrColon sA u = false) :
    occBrColon sA (rs (brColonTry s c) u).1 = false := by
  show occP '\x7b' (brCore ':' sA) (rs (mkTry '\x7b' (brCore ':' s) (c ++ [':'])) u).1 = false
  refine brSub_master hv (by decide) (by decide) (by decide) hkA (brCore_strip) ?_ u (Or.inl h)
  intro u2 hu2
  exact brCore_reflect (brCore_le ':' s) (by decide) (by decide) hkA.1 u2 hu2

theorem presBzBc {s c sA : List Char} (hv : WfVal c) (hkA : WfKey sA)
    (u : List Char) (h : occBrClose sA u = false) :
    occBrClose sA (rs (brColonTry s c) u).1 = false := by
  show occP '\x7b' (brCore '\x7d' sA) (rs (mkTry '\x7b' (brCore ':' s) (c ++ [':'])) u).1 = false
  refine brSub_master hv (by decide) (by decide) (by decide) hkA (brCore_strip) ?_ u (Or.inl h)
  intro u2 hu2
  exact brCore_reflect (brCore_le ':' s) (by decide) (by decide) hkA.1 u2 hu2

theorem presSqBc {s c sA : List Char} (hv : WfVal c) (hkA : WfKey sA)
    (u : List Char) (h : occSq sA u = false) :
    occSq sA (rs (brColonTry s c) u).1 = false := by
  show occP '\'' (qCore '\'' sA) (rs (mkTry '\x7b' (brCore ':' s) (c ++ [':'])) u).1 = false
  refine brSub_master hv (by decide) (by decide) (by decide) hkA (qCore_strip (WfKey.ne_nil hkA) hkA.1) ?_ u (Or.inl h)
  intro u2 hu2
  exact qCore_reflect (brCore_le ':' s) (by decide) hkA.1 (rep_head_word [':'] hv) u2 hu2

theorem presDqBc {s c sA : List Char} (hv : WfVal c) (hkA : WfKey sA)
    (u : List Char) (h : occDq sA u = false) :
    occDq sA (rs (brColonTry s c) u).1 = false := by
  show occP '"' (qCore '"' sA) (rs (mkTry '\x7b' (brCore ':' s) (c ++ [':'])) u).1 = false
  refine brSub_master hv (by decide) (by decide) (by decide) hkA (qCore_strip (WfKey.ne_nil hkA) hkA.1) ?_ u (Or.inl h)
  intro u2 hu2
  exact qCore_reflect (brCore_le ':' s) (by decide) hkA.1 (rep_head_word [':'] hv) u2 hu2

theorem presDtBz {s c sA : List Char} (hv : WfVal c) (hkA : WfKey sA)
    (u : List Char) (h : occDot sA u = false) :
    occDot sA (rs (brCloseTry s c) u).1 = false := by
  show occP '.' (dotCore sA) (rs (mkTry '\x7b' (brCore '\x7d' s) (c ++ ['\x7d'])) u).1 = false
  refine brSub_master hv (by decide) (by decide) (by decide) hkA (dotCore_strip (WfKey.ne_nil hkA) hkA.1) ?_ u (Or.inl h)
  intro u2 hu2
  exact dotCore_reflect (brCore_le '\x7d' s) (by decide) hkA.1 u2 hu2

theorem presBcBz {s c sA : List Char} (hv : WfVal c) (hkA : WfKey sA)
    (u : List Char) (h : occBrColon sA u = false) :
    occBrColon sA (rs (brCloseTry s c) u).1 = false := by
  show occP '\x7b' (brCore ':' sA) (rs (mkTry '\x7b' (brCore '\x7d' s) (c ++ ['\x7d'])) u).1 = false
  refine brSub_master hv (by decide) (by decide) (by decide) hkA (brCore_strip) ?_ u (Or.inl h)
  intro u2 hu2
  exact brCore_reflect (brCore_le '\x7d' s) (by decide) (by decide) hkA.1 u2 hu2

theorem presBzBz {s c sA : List Char} (hv : WfVal c) (hkA : WfKey sA)
    (u : List Char) (h : occBrClose sA u = false) :
    occBrClose sA (rs (brCloseTry s c) u).1 = false := by
  show occP '\x7b' (brCore '\x7d' sA) (rs (mkTry '\x7b' (brCore '\x7d' s) (c ++ ['\x7d'])) u).1 = false
  refine brSub_master hv (by decide) (by decide) (by decide) hkA (brCore_strip) ?_ u (Or.inl h)
  intro u2 hu2
  exact brCore_reflect (brCore_le '\x7d' s) (by decide) (by decide) hkA.1 u2 hu2

theorem presSqBz {s c sA : List Char} (hv : WfVal c) (hkA : WfKey sA)
    (u : List Char) (h : occSq sA u = false) :
    occSq sA (rs (brCloseTry s c) u).1 = false := by
  show occP '\'' (qCore '\'' sA) (rs (mkTry '\x7b' (brCore '\x7d' s) (c ++ ['\x7d'])) u).1 = false
  refine brSub_master hv (by decide) (by decide) (by decide) hkA (qCore_strip (WfKey.ne_nil hkA) hkA.1) ?_ u (Or.inl h)
  intro u2 hu2
  exact qCore_reflect (brCore_le '\x7d' s) (by decide) hkA.1 (rep_head_word ['\x7d'] hv) u2 hu2

theorem presDqBz {s c sA : List Char} (hv : WfVal c) (hkA : WfKey sA)
    (u : List Char) (h : occDq sA u = false) :
    occDq sA (rs (brCloseTry s c) u).1 = false := by
  show occP '"' (qCore '"' sA) (rs (mkTry '\x7b' (brCore '\x7d' s) (c ++ ['\x7d'])) u).1 = false
  refine brSub_master hv (by decide) (by decide) (by decide) hkA (qCore_strip (WfKey.ne_nil hkA) hkA.1) ?_ u (Or.inl h)
  intro u2 hu2
  exact qCore_reflect (brCore_le '\x7d' s) (by decide) hkA.1 (rep_head_word ['\x7d'] hv) u2 hu2

theorem presDtSq {s c sA : List Char} (hv : WfVal c) (hkA : WfKey sA)
    (u : List Char) (h : occDot sA u = false) :
    occDot sA (rs (sqTry s c) u).1 = false := by
  show occP '.' (dotCore sA) (rs (mkTry '\'' (qCore '\'' s) (c ++ ['\'', ':'])) u).1 = false
  refine qSub_master hv (by decide) (by decide) (by decide) hkA (dotCore_strip (WfKey.ne_nil hkA) hkA.1) ?_ u (Or.inl h)
  intro u2 hu2
  exact dotCore_reflect (qCore_le '\'' s) (by decide) hkA.1 u2 hu2

theorem presBcSq {s c sA : List Char} (hv : WfVal c) (hkA : WfKey sA)
    (u : List Char) (h : occBrColon sA u = false) :
    occBrColon sA (rs (sqTry s c) u).1 = false := by
  show occP '\x7b' (brCore ':' sA) (rs (mkTry '\'' (qCore '\'' s) (c ++ ['\'', ':'])) u).1 = false
  refine qSub_master hv (by decide) (by decide) (by decide) hkA (brCore_strip) ?_ u (Or.inl h)
  intro u2 hu2
  exact brCore_reflect (qCore_le '\'' s) (by decide) (by decide) hkA.1 u2 hu2

theorem presBzSq {s c sA : List Char} (hv : WfVal c) (hkA : WfKey sA)
    (u : List Char) (h : occBrClose sA u = false) :
    occBrClose sA (rs (sqTry s c) u).1 = false := by
  show occP '\x7b' (brCore '\x7d' sA) (rs (mkTry '\'' (qCore '\'' s) (c ++ ['\'', ':'])) u).1 = false
  refine qSub_master hv (by decide) (by decide) (by decide) hkA (brCore_strip) ?_ u (Or.inl h)
  intro u2 hu2
  exact brCore_reflect (qCore_le '\'' s) (by decide) (by decide) hkA.1 u2 hu2

theorem presSqSq {s c sA : List Char} (hv : WfVal c) (hkA : WfKey sA)
    (u : List Char) (h : occSq sA u = false) :
    occSq sA (rs (sqTry s c) u).1 = false := by
  show occP '\'' (qCore '\'' sA) (rs (mkTry '\'' (qCore '\'' s) (c ++ ['\'', ':'])) u).1 = false
  refine qSub_master hv (by decide) (by decide) (by decide) hkA (qCore_strip (WfKey.ne_nil hkA) hkA.1) ?_ u (Or.inl h)
  intro u2 hu2
  exact qCore_reflect (qCore_le '\'' s) (by decide) hkA.1 (rep_head_word ['\'', ':'] hv) u2 hu2

theorem presDqSq {s c sA : List Char} (hv : WfVal c) (hkA : WfKey sA)
    (u : List Char) (h : occDq sA u = false) :
    occDq sA (rs (sqTry s c) u).1 = false := by
  show occP '"' (qCore '"' sA) (rs (mkTry '\'' (qCore '\'' s) (c ++ ['\'', ':'])) u).1 = false
  refine qSub_master hv (by decide) (by decide) (by decide) hkA (qCore_strip (WfKey.ne_nil hkA) hkA.1) ?_ u (Or.inl h)
  intro u2 hu2
  exact qCore_reflect (qCore_le '\'' s) (by decide) hkA.1 (rep_head_word ['\'', ':'] hv) u2 hu2

theorem presDtDq {s c sA : List Char} (hv : WfVal c) (hkA : WfKey sA)
    (u : List Char) (h : occDot sA u = false) :
    occDot sA (rs (dqTry s c) u).1 = false := by
  show occP '.' (dotCore sA) (rs (mkTry '"' (qCore '"' s) (c ++ ['"', ':'])) u).1 = false
  refine qSub_master hv (by decide) (by decide) (by decide) hkA (dotCore_strip (WfKey.ne_nil hkA) hkA.1) ?_ u (Or.inl h)
  intro u2 hu2
  exact dotCore_reflect (qCore_le '"' s) (by decide) hkA.1 u2 hu2

theorem presBcDq {s c sA : List Char} (hv : WfVal c) (hkA : WfKey sA)
    (u : List Char) (h : occBrColon sA u = false) :
    occBrColon sA (rs (dqTry s c) u).1 = false := by
  show occP '\x7b' (brCore ':' sA) (rs (mkTry '"' (qCore '"' s) (c ++ ['"', ':'])) u).1 = false
  refine qSub_master hv (by decide) (by decide) (by decide) hkA (brCore_strip) ?_ u (Or.inl h)
  intro u2 hu2
  exact brCore_reflect (qCore_le '"' s) (by decide) (by decide) hkA.1 u2 hu2

theorem presBzDq {s c sA : List Char} (hv : WfVal c) (hkA : WfKey sA)
    (u : List Char) (h : occBrClose sA u = false) :
    occBrClose sA (rs (dqTry s c) u).1 = false := by
  show occP '\x7b' (brCore '\x7d' sA) (rs (mkTry '"' (qCore '"' s) (c ++ ['"', ':'])) u).1 = false
  refine qSub_master hv (by decide) (by decide) (by decide) hkA (brCore_strip) ?_ u (Or.inl h)
  intro u2 hu2
  exact brCore_reflect (qCore_le '"' s) (by decide) (by decide) hkA.1 u2 hu2

theorem presSqDq {s c sA : List Char} (hv : WfVal c) (hkA : WfKey sA)
    (u : List Char) (h : occSq sA u = false) :
    occSq sA (rs (dqTry s c) u).1 = false := by
  show occP '\'' (qCore '\'' sA) (rs (mkTry '"' (qCore '"' s) (c ++ ['"', ':'])) u).1 = false
  refine qSub_master hv (by decide) (by decide) (by decide) hkA (qCore_strip (WfKey.ne_nil hkA) hkA.1) ?_ u (Or.inl h)
  intro u2 hu2
  exact qCore_reflect (qCore_le '"' s) (by decide) hkA.1 (rep_head_word ['"', ':'] hv) u2 hu2

theorem presDqDq {s c sA : List Char} (hv : WfVal c) (hkA : WfKey sA)
    (u : List Char) (h : occDq sA u = false) :
    occDq sA (rs (dqTry s c) u).1 = false := by
  show occP '"' (qCore '"' sA) (rs (mkTry '"' (qCore '"' s) (c ++ ['"', ':'])) u).1 = false
  refine qSub_master hv (by decide) (by decide) (by decide) hkA (qCore_strip (WfKey.ne_nil hkA) hkA.1) ?_ u (Or.inl h)
  intro u2 hu2
  exact qCore_reflect (qCore_le '"' s) (by decide) hkA.1 (rep_head_word ['"', ':'] hv) u2 hu2

theorem selfDt {s c : List Char} (hk : WfKey s) (hv : WfVal c) (u : List Char) :
    occDot s (rs (dotTry s c) u).1 = false := by
  show occP '.' (dotCore s) (rs (mkTry '.' (dotCore s) c) u).1 = false
  refine dotSub_master hv (by decide) hk (dotCore_strip (WfKey.ne_nil hk) hk.1) ?_ u (Or.inr ⟨rfl, rfl⟩)
  intro u2 hu2
  exact dotCore_reflect (dotCore_le s) (by decide) hk.1 u2 hu2

theorem selfBc {s c : List Char} (hk : WfKey s) (hv : WfVal c) (u : List Char) :
    occBrColon s (rs (brColonTry s c) u).1 = false := by
  show occP '\x7b' (brCore ':' s) (rs (mkTry '\x7b' (brCore ':' s) (c ++ [':'])) u).1 = false
  refine brSub_master hv (by decide) (by decide) (by decide) hk (brCore_strip) ?_ u (Or.inr ⟨rfl, rfl⟩)
  intro u2 hu2
  exact brCore_reflect (brCore_le ':' s) (by decide) (by decide) hk.1 u2 hu2

theorem selfBz {s c : List Char} (hk : WfKey s) (hv : WfVal c) (u : List Char) :
    occBrClose s (rs (brCloseTry s c) u).1 = false := by
  show occP '\x7b' (brCore '\x7d' s) (rs (mkTry '\x7b' (brCore '\x7d' s) (c ++ ['\x7d'])) u).1 = false
  refine brSub_master hv (by decide) (by decide) (by decide) hk (brCore_strip) ?_ u (Or.inr ⟨rfl, rfl⟩)
  intro u2 hu2
  exact brCore_reflect (brCore_le '\x7d' s) (by decide) (by decide) hk.1 u2 hu2

theorem selfSq {s c : List Char} (hk : WfKey s) (hv : WfVal c) (u : List Char) :
    occSq s (rs (sqTry s c) u).1 = false := by
  show occP '\'' (qCore '\'' s) (rs (mkTry '\'' (qCore '\'' s) (c ++ ['\'', ':'])) u).1 = false
  refine qSub_master hv (by decide) (by decide) (by decide) hk (qCore_strip (WfKey.ne_nil hk) hk.1) ?_ u (Or.inr ⟨rfl, rfl⟩)
  intro u2 hu2
  exact qCore_reflect (qCore_le '\'' s) (by decide) hk.1 (rep_head_word ['\'', ':'] hv) u2 hu2

theorem selfDq {s c : List Char} (hk : WfKey s) (hv : WfVal c) (u : List Char) :
    occDq s (rs (dqTry s c) u).1 = false := by
  show occP '"' (qCore '"' s) (rs (mkTry '"' (qCore '"' s) (c ++ ['"', ':'])) u).1 = false
  refine qSub_master hv (by decide) (by decide) (by decide) hk (qCore_strip (WfKey.ne_nil hk) hk.1) ?_ u (Or.inr ⟨rfl, rfl⟩)
  intro u2 hu2
  exact qCore_reflect (qCore_le '"' s) (by decide) hk.1 (rep_head_word ['"', ':'] hv) u2 hu2

/-- One entry of `convert_file` leaves no occurrence of any wellformed
spelling that had none before, and none of its own spelling either. -/
theorem applyEntry_clean {s c sA : List Char} (hv : WfVal c)
    (hkA : WfKey sA) (t : List Char) (hbase : NoOcc sA t ∨ sA = s) :
    NoOcc sA (applyEntry s c t).1 := by
  have hfst : (applyEntry s c t).1 =
      (rs (dqTry s c) (rs (sqTry s c) (rs (brCloseTry s c)
        (rs (brColonTry s c) (rs (dotTry s c) t).1).1).1).1).1 := rfl
  rw [NoOcc, hfst]
  rcases hbase with hno | hEq
  · obtain ⟨h1, h2, h3, h4, h5⟩ := hno
    exact ⟨presDtDq hv hkA _ (presDtSq hv hkA _ (presDtBz hv hkA _
        (presDtBc hv hkA _ (presDtDt hv hkA _ h1)))),
      presBcDq hv hkA _ (presBcSq hv hkA _ (presBcBz hv hkA _
        (presBcBc hv hkA _ (presBcDt hv hkA _ h2)))),
      presBzDq hv hkA _ (presBzSq hv hkA _ (presBzBz hv hkA _
        (presBzBc hv hkA _ (presBzDt hv hkA _ h3)))),
      presSqDq hv hkA _ (presSqSq hv hkA _ (presSqBz hv hkA _
        (presSqBc hv hkA _ (presSqDt hv hkA _ h4)))),
      presDqDq hv hkA _ (presDqSq hv hkA _ (presDqBz hv hkA _
        (presDqBc hv hkA _ (presDqDt hv hkA _ h5))))⟩
  · subst hEq
    exact ⟨presDtDq hv hkA _ (presDtSq hv hkA _ (presDtBz hv hkA _
        (presDtBc hv hkA _ (selfDt hkA hv _)))),
      presBcDq hv hkA _ (presBcSq hv hkA _ (presBcBz hv hkA _ (selfBc hkA hv _))),
      presBzDq hv hkA _ (presBzSq hv hkA _ (selfBz hkA hv _)),
      presSqDq hv hkA _ (selfSq hkA hv _),
      selfDq hkA hv _⟩

theorem convertFold_cons (s c : List Char) (m : List (List Char × List Char))
    (t : List Char) :
    convertFold ((s, c) :: m) t =
      ((convertFold m (applyEntry s c t).1).1,
        (if 0 < (applyEntry s c t).2 then (applyEntry s c t).2 else 0) +
          (convertFold m (applyEntry s c t).1).2) := rfl

/-- Absence of occurrences is preserved by a whole `convert_file` pass. -/
theorem convertFold_pres {m : List (List Char × List Char)} (hm : WfMap m)
    {sA : List Char} (hkA : WfKey sA) :
    ∀ t, NoOcc sA t → NoOcc sA (convertFold m t).1 := by
  induction m with
  | nil => intro t h; exact h
  | cons pr m ih =>
    obtain ⟨s, c⟩ := pr
    intro t h
    rw [convertFold_cons]
    exact ih (fun x hx => hm x (by simp [hx])) _
      (applyEntry_clean (hm (s, c) (by simp)).2 hkA t (Or.inl h))

/-- After one full `convert_file` pass, no mapped spelling occurs in any
recognized context in the output. -/
theorem convertFold_clean {m : List (List Char × List Char)} (hm : WfMap m) :
    ∀ t, ∀ pr ∈ m, NoOcc pr.1 (convertFold m t).1 := by
  induction m with
  | nil => intro t pr h; simp at h
  | cons pr0 m ih =>
    obtain ⟨s, c⟩ := pr0
    intro t pr hpr
    rw [convertFold_cons]
    rcases List.mem_cons.mp hpr with he | hm2
    · subst he
      exact convertFold_pres (fun x hx => hm x (by simp [hx]))
        (hm (s, c) (by simp)).1 _
        (applyEntry_clean (hm (s, c) (by simp)).2 (hm (s, c) (by simp)).1 t
          (Or.inr rfl))
    · exact ih (fun x hx => hm x (by simp [hx])) _ pr hm2

/-- An entry whose spelling has no occurrence does nothing and counts 0. -/
theorem applyEntry_of_noocc {s c t : List Char} (h : NoOcc s t) :
    applyEntry s c t = (t, 0) := by
  obtain ⟨h1, h2, h3, h4, h5⟩ := h
  have e1 : rs (dotTry s c) t = (t, 0) := rs_of_occP_false (dotCore_le s) t h1
  have e2 : rs (brColonTry s c) t = (t, 0) :=
    rs_of_occP_false (brCore_le ':' s) t h2
  have e3 : rs (brCloseTry s c) t = (t, 0) :=
    rs_of_occP_false (brCore_le '\x7d' s) t h3
  have e4 : rs (sqTry s c) t = (t, 0) := rs_of_occP_false (qCore_le '\'' s) t h4
  have e5 : rs (dqTry s c) t = (t, 0) := rs_of_occP_false (qCore_le '"' s) t h5
  simp [applyEntry, e1, e2, e3, e4, e5]

/-- A pass over a text in which no mapped spelling occurs is the identity
and counts zero occurrences. -/
theorem convertFold_of_noocc : ∀ (m : List (List Char × List Char)) (t : List Char),
    (∀ pr ∈ m, NoOcc pr.1 t) → convertFold m t = (t, 0) := by
  intro m
  induction m with
  | nil => intro t _; rfl
  | cons pr m ih =>
    obtain ⟨s, c⟩ := pr
    intro t h
    rw [convertFold_cons, applyEntry_of_noocc (h (s, c) (by simp))]
    rw [ih t (fun x hx => h x (by simp [hx]))]
    simp

theorem ws_not_word {ch : Char} (h : isWS ch = true) : isWord ch = false := by
  cases hw : isWord ch
  · rfl
  · rw [word_not_ws hw] at h
    exact absurd h (by simp)

theorem takeWS_mem_ws {t : List Char} {ch : Char} (h : ch ∈ takeWS t) :
    isWS ch = true := List.mem_takeWhile_imp h

/-- Every pattern-1 occurrence decomposes as `.SNAKE` with a word boundary. -/
theorem occDot_split {s t : List Char} (h : occDot s t = true) :
    ∃ u v, t = u ++ '.' :: (s ++ v) ∧ bdOk v = true := by
  rw [occDot] at h
  induction t with
  | nil => simp [occP] at h
  | cons a t ih =>
    rw [occP] at h
    rcases Bool.or_eq_true_iff.mp h with hh | ht
    · obtain ⟨ha, hs⟩ := Bool.and_eq_true_iff.mp hh
      have ha2 : a = '.' := of_decide_eq_true ha
      obtain ⟨r, hr⟩ := Option.isSome_iff_exists.mp hs
      simp only [dotCore, Option.bind_eq_some] at hr
      obtain ⟨r1, h1, h2⟩ := hr
      by_cases hb : bdOk r1 = true
      · exact ⟨[], r1, by rw [ha2, stripPref_eq_append s t r1 h1]; rfl, hb⟩
      · simp [hb] at h2
    · obtain ⟨u, v, he, hb⟩ := ih ht
      exact ⟨a :: u, v, by rw [he]; rfl, hb⟩

/-- Every pattern-2/3 occurrence decomposes as brace, whitespace, spelling,
whitespace, closer. -/
theorem occBr_split {closer : Char} {s t : List Char}
    (h : occP '\x7b' (brCore closer s) t = true) :
    ∃ u w1 w2 v, t = u ++ '\x7b' :: (w1 ++ (s ++ (w2 ++ closer :: v))) ∧
      (∀ ch ∈ w1, isWS ch = true) ∧ (∀ ch ∈ w2, isWS ch = true) := by
  induction t with
  | nil => simp [occP] at h
  | cons a t ih =>
    rw [occP] at h
    rcases Bool.or_eq_true_iff.mp h with hh | ht
    · obtain ⟨ha, hs⟩ := Bool.and_eq_true_iff.mp hh
      have ha2 : a = '\x7b' := of_decide_eq_true ha
      obtain ⟨r, hr⟩ := Option.isSome_iff_exists.mp hs
      simp only [brCore, Option.bind_eq_some] at hr
      obtain ⟨r1, h1, h2⟩ := hr
      refine ⟨[], takeWS t, takeWS r1, r, ?_, fun ch hch => takeWS_mem_ws hch,
        fun ch hch => takeWS_mem_ws hch⟩
      have et : t = takeWS t ++ skipWS t := (takeWS_append_skipWS t).symm
      have er1 : r1 = takeWS r1 ++ skipWS r1 := (takeWS_append_skipWS r1).symm
      have e1 : skipWS t = s ++ r1 := stripPref_eq_append _ _ _ h1
      have e2 : skipWS r1 = closer :: r := expectCh_some h2
      rw [ha2, List.nil_append]
      rw [← e2, ← er1, ← e1, ← et]
    · obtain ⟨u, w1, w2, v, he, hw1, hw2⟩ := ih ht
      exact ⟨a :: u, w1, w2, v, by rw [he]; rfl, hw1, hw2⟩

/-- Every pattern-4/5 occurrence decomposes as quote, spelling, quote, colon. -/
theorem occQ_split {q : Char} {s t : List Char}
    (h : occP q (qCore q s) t = true) :
    ∃ u v, t = u ++ q :: (s ++ (q :: ':' :: v)) := by
  induction t with
  | nil => simp [occP] at h
  | cons a t ih =>
    rw [occP] at h
    rcases Bool.or_eq_true_iff.mp h with hh | ht
    · obtain ⟨ha, hs⟩ := Bool.and_eq_true_iff.mp hh
      have ha2 : a = q := of_decide_eq_true ha
      obtain ⟨r, hr⟩ := Option.isSome_iff_exists.mp hs
      simp only [qCore, Option.bind_eq_some] at hr
      obtain ⟨r1, h1, r2, h2, h3⟩ := hr
      refine ⟨[], r, ?_⟩
      have e1 : t = s ++ r1 := stripPref_eq_append _ _ _ h1
      have e2 : r1 = q :: r2 := expectCh_some h2
      have e3 : r2 = ':' :: r := expectCh_some h3
      rw [ha2, List.nil_append, e1, e2, e3]
    · obtain ⟨u, v, he⟩ := ih ht
      exact ⟨a :: u, v, by rw [he]; rfl⟩

/-- Whether position `i` of `t` holds an identifier character. -/
def wordAt (t : List Char) (i : Nat) : Bool :=
  match t.get? i with
  | some a => isWord a
  | none => false

theorem get?_after : ∀ (u z : List Char) (k : Nat),
    (u ++ z).get? (u.length + k) = z.get? k := by
  intro u
  induction u with
  | nil => intro z k; simp
  | cons a u ih =>
    intro z k
    have : (a :: u).length + k = (u.length + k) + 1 := by
      simp [List.length_cons]
      omega
    rw [this, List.cons_append]
    show (u ++ z).get? (u.length + k) = z.get? k
    exact ih z k

theorem get?_zero_head : ∀ z : List Char, z.get? 0 = z.head? := by
  intro z
  cases z <;> rfl

theorem split_last_nonword : ∀ (w1 : List Char) (u : List Char) (b : Char),
    isWord b = false → (∀ ch ∈ w1, isWS ch = true) →
    ∃ u3 lc, u ++ b :: w1 = u3 ++ [lc] ∧ isWord lc = false := by
  intro w1
  induction w1 with
  | nil => intro u b hb _; exact ⟨u, b, rfl, hb⟩
  | cons x w ih =>
    intro u b hb hw
    have hx : isWord x = false := ws_not_word (hw x (by simp))
    obtain ⟨u3, lc, he, hlc⟩ := ih (u ++ [b]) x hx
      (fun ch hch => hw ch (by simp [hch]))
    refine ⟨u3, lc, ?_, hlc⟩
    rw [← he]
    simp

/-- A position where the spelling occurs flanked on both sides by
non-identifier characters contradicts the assumption that every occurrence
lies inside a longer identifier. -/
theorem flank_contra {t s1 : List Char} (hs1 : s1 ≠ [])
    (hflank : ∀ i, i < t.length → (t.drop i).take s1.length = s1 →
      ((1 ≤ i ∧ wordAt t (i - 1) = true) ∨ wordAt t (i + s1.length) = true))
    {u3 : List Char} {lc : Char} {rest2 : List Char}
    (hsplit : t = (u3 ++ [lc]) ++ (s1 ++ rest2)) (hlcw : isWord lc = false)
    (hright : ∀ b, rest2.head? = some b → isWord b = false) : False := by
  have hlen1 : (u3 ++ [lc]).length = u3.length + 1 := by simp
  have hi : u3.length + 1 < t.length := by
    rw [hsplit]
    simp only [List.length_append, List.length_cons]
    cases s1 with
    | nil => exact absurd rfl hs1
    | cons a s => simp
  have hdt : (t.drop (u3.length + 1)).take s1.length = s1 := by
    rw [hsplit, ← hlen1, List.drop_left, List.take_left]
  have hleft : t.get? (u3.length + 1 - 1) = some lc := by
    have : t = u3 ++ ([lc] ++ (s1 ++ rest2)) := by rw [hsplit]; simp
    rw [this]
    have h0 : u3.length + 1 - 1 = u3.length + 0 := by omega
    rw [h0, get?_after]
    rfl
  have hrightg : t.get? (u3.length + 1 + s1.length) = rest2.head? := by
    have he2 : t = ((u3 ++ [lc]) ++ s1) ++ rest2 := by rw [hsplit]; simp
    have hl2 : u3.length + 1 + s1.length = ((u3 ++ [lc]) ++ s1).length + 0 := by
      simp
      omega
    rw [he2, hl2, get?_after, get?_zero_head]
  rcases hflank (u3.length + 1) hi hdt with ⟨_, hwa⟩ | hwb
  · rw [wordAt, hleft] at hwa
    change isWord lc = true at hwa
    rw [hlcw] at hwa
    exact Bool.false_ne_true hwa
  · rw [wordAt, hrightg] at hwb
    cases hrest : rest2.head? with
    | none =>
      rw [hrest] at hwb
      change (false : Bool) = true at hwb
      exact Bool.false_ne_true hwb
    | some b =>
      rw [hrest] at hwb
      change isWord b = true at hwb
      rw [hright b hrest] at hwb
      exact Bool.false_ne_true hwb

instance decWfKey (s : List Char) : Decidable (WfKey s) := by
  unfold WfKey
  infer_instance

instance decWfVal (c : List Char) : Decidable (WfVal c) := by
  unfold WfVal
  infer_instance

instance decWfMap (m : List (List Char × List Char)) : Decidable (WfMap m) := by
  unfold WfMap
  infer_instance

instance decNoOcc (s t : List Char) : Decidable (NoOcc s t) := by
  unfold NoOcc
  infer_instance

theorem head_ws_closer {w2 v : List Char} {cl : Char}
    (hw2 : ∀ ch ∈ w2, isWS ch = true) (hcl : isWord cl = false) :
    ∀ b, (w2 ++ cl :: v).head? = some b → isWord b = false := by
  intro b hb
  cases w2 with
  | nil =>
    simp only [List.nil_append, List.head?_cons, Option.some.injEq] at hb
    rw [← hb]
    exact hcl
  | cons x w =>
    simp only [List.cons_append, List.head?_cons, Option.some.injEq] at hb
    rw [← hb]
    exact ws_not_word (hw2 x (by simp))

/-- Claim C8: the five patterns of the rename engine match only full
identifier occurrences — anchored so that the matched spelling is not
immediately preceded or followed by further identifier characters.  Hence
for a pair of mapping entries where the old spelling `s1` is a strict
substring of the old spelling `s2`, a text in which every occurrence of
`s1` lies inside a longer identifier (flanked by at least one identifier
character) is never partially substituted: the `s1` entry performs zero
replacements and leaves the text unchanged. -/
theorem c8_word_boundary_anchoring {s1 c1 s2 : List Char} (hk1 : WfKey s1)
    (hsub : ∃ pre post, s2 = pre ++ s1 ++ post ∧ pre ++ post ≠ [])
    {t : List Char}
    (hflank : ∀ i, i < t.length → (t.drop i).take s1.length = s1 →
      ((1 ≤ i ∧ wordAt t (i - 1) = true) ∨ wordAt t (i + s1.length) = true)) :
    applyEntry s1 c1 t = (t, 0) := by
  have hs1ne : s1 ≠ [] := WfKey.ne_nil hk1
  refine applyEntry_of_noocc ⟨?_, ?_, ?_, ?_, ?_⟩
  · cases hD : occDot s1 t
    · rfl
    · exfalso
      obtain ⟨u, v, he, hb⟩ := occDot_split hD
      have hsplit : t = (u ++ ['.']) ++ (s1 ++ v) := by rw [he]; simp
      refine flank_contra hs1ne hflank hsplit (by decide) ?_
      intro b hbv
      cases v with
      | nil => simp at hbv
      | cons x w =>
        simp only [List.head?_cons, Option.some.injEq] at hbv
        rw [← hbv]
        simpa [bdOk] using hb
  · cases hD : occBrColon s1 t
    · rfl
    · exfalso
      obtain ⟨u, w1, w2, v, he, hw1, hw2⟩ := occBr_split hD
      obtain ⟨u3, lc, he3, hlc⟩ :=
        split_last_nonword w1 u '\x7b' (by decide) hw1
      have hsplit : t = (u3 ++ [lc]) ++ (s1 ++ (w2 ++ ':' :: v)) := by
        rw [he, ← he3]
        simp
      exact flank_contra hs1ne hflank hsplit hlc (head_ws_closer hw2 (by decide))
  · cases hD : occBrClose s1 t
    · rfl
    · exfalso
      obtain ⟨u, w1, w2, v, he, hw1, hw2⟩ := occBr_split hD
      obtain ⟨u3, lc, he3, hlc⟩ :=
        split_last_nonword w1 u '\x7b' (by decide) hw1
      have hsplit : t = (u3 ++ [lc]) ++ (s1 ++ (w2 ++ '\x7d' :: v)) := by
        rw [he, ← he3]
        simp
      exact flank_contra hs1ne hflank hsplit hlc (head_ws_closer hw2 (by decide))
  · cases hD : occSq s1 t
    · rfl
    · exfalso
      obtain ⟨u, v, he⟩ := occQ_split hD
      have hsplit : t = (u ++ ['\'']) ++ (s1 ++ ('\'' :: ':' :: v)) := by
        rw [he]
        simp
      refine flank_contra hs1ne hflank hsplit (by decide) ?_
      intro b hbv
      simp only [List.head?_cons, Option.some.injEq] at hbv
      rw [← hbv]
      decide
  · cases hD : occDq s1 t
    · rfl
    · exfalso
      obtain ⟨u, v, he⟩ := occQ_split hD
      have hsplit : t = (u ++ ['"']) ++ (s1 ++ ('"' :: ':' :: v)) := by
        rw [he]
        simp
      refine flank_contra hs1ne hflank hsplit (by decide) ?_
      intro b hbv
      simp only [List.head?_cons, Option.some.injEq] at hbv
      rw [← hbv]
      decide

/-- Claim C2: the rename transformation of `convert_file` is idempotent for
every snake-to-camel mapping (keys contain an underscore, values are
underscore-free identifiers): a second pass over the already-transformed
text changes nothing and finds zero occurrences. -/
theorem c2_rename_idempotent {m : List (List Char × List Char)}
    {F : List Char} (hm : WfMap m) :
    convertText m (convertText m F) = convertText m F ∧
      convertCount m (convertText m F) = 0 := by
  have h := convertFold_of_noocc m (convertText m F)
    (fun pr hpr => convertFold_clean hm F pr hpr)
  constructor
  · show (convertFold m (convertText m F)).1 = convertText m F
    rw [h]
  · show (convertFold m (convertText m F)).2 = 0
    rw [h]

/-- Witness for claim C2: a concrete mapping and file. -/
theorem c2_rename_idempotent_witness :
    WfMap [("min_word_length".data, "minWordLength".data),
      ("word_count".data, "wordCount".data)] ∧
    (convertText [("min_word_length".data, "minWordLength".data),
        ("word_count".data, "wordCount".data)]
      (convertText [("min_word_length".data, "minWordLength".data),
          ("word_count".data, "wordCount".data)]
        "a.min_word_length; \x7b word_count: 2 \x7d".data) =
      convertText [("min_word_length".data, "minWordLength".data),
          ("word_count".data, "wordCount".data)]
        "a.min_word_length; \x7b word_count: 2 \x7d".data ∧
      convertCount [("min_word_length".data, "minWordLength".data),
          ("word_count".data, "wordCount".data)]
        (convertText [("min_word_length".data, "minWordLength".data),
            ("word_count".data, "wordCount".data)]
          "a.min_word_length; \x7b word_count: 2 \x7d".data) = 0) :=
  ⟨by decide, c2_rename_idempotent (by decide)⟩

/-- Claim C3: a text containing no occurrence of any mapped old spelling in
any of the five recognized pattern contexts is returned byte-identical with
count 0, and the write-back (gated on genuine change) does not occur. -/
theorem c3_noop_preservation {m : List (List Char × List Char)}
    {F : List Char} (h : ∀ pr ∈ m, NoOcc pr.1 F) :
    convertText m F = F ∧ convertCount m F = 0 ∧ convertRet m F = 0 ∧
      convertWrites m F = false := by
  have he := convertFold_of_noocc m F h
  have h1 : convertText m F = F := by
    show (convertFold m F).1 = F
    rw [he]
  refine ⟨h1, ?_, ?_, ?_⟩
  · show (convertFold m F).2 = 0
    rw [he]
  · rw [convertRet, if_pos h1]
  · rw [convertWrites]
    simp [h1]

/-- Witness for claim C3: a concrete mapping and occurrence-free file. -/
theorem c3_noop_preservation_witness :
    (∀ pr ∈ [("min_word_length".data, "minWordLength".data),
        ("word_count".data, "wordCount".data)],
      NoOcc pr.1 "const x = config.minWordLength + wordCount;".data) ∧
    (convertText [("min_word_length".data, "minWordLength".data),
        ("word_count".data, "wordCount".data)]
      "const x = config.minWordLength + wordCount;".data =
      "const x = config.minWordLength + wordCount;".data ∧
     convertCount [("min_word_length".data, "minWordLength".data),
        ("word_count".data, "wordCount".data)]
      "const x = config.minWordLength + wordCount;".data = 0 ∧
     convertRet [("min_word_length".data, "minWordLength".data),
        ("word_count".data, "wordCount".data)]
      "const x = config.minWordLength + wordCount;".data = 0 ∧
     convertWrites [("min_word_length".data, "minWordLength".data),
        ("word_count".data, "wordCount".data)]
      "const x = config.minWordLength + wordCount;".data = false) :=
  ⟨by decide, c3_noop_preservation (by decide)⟩

/-- Counterexample for claim C4: the object-literal rewrite does not
preserve the space between the opening brace and the key; the output is
not the spec's expected text. -/
theorem c4_counterexample :
    convertText [("min_word_length".data, "minWordLength".data)]
      "\x7b min_word_length: 3 \x7d".data ≠
    "\x7b minWordLength: 3 \x7d".data := by decide

/-- Claim C4 as amended: the object-literal input is rewritten with the key
renamed, but the whitespace between the opening brace and the key is
consumed by the match and not restored; spacing after the colon survives. -/
theorem c4_object_literal_rewrite :
    convertText [("min_word_length".data, "minWordLength".data)]
      "\x7b min_word_length: 3 \x7d".data =
    "\x7bminWordLength: 3 \x7d".data ∧
    convertCount [("min_word_length".data, "minWordLength".data)]
      "\x7b min_word_length: 3 \x7d".data = 1 := by decide

/-- Witness for claim C8: `word_length` is a strict substring of
`min_word_length`; in `config.min_word_length = 3;` its only occurrence is
preceded by the identifier character `_`, and the `word_length` entry
leaves the text unchanged with zero replacements. -/
theorem c8_word_boundary_anchoring_witness :
    WfKey "word_length".data ∧
    (∃ pre post, "min_word_length".data =
      pre ++ "word_length".data ++ post ∧ pre ++ post ≠ []) ∧
    (∀ i, i < "config.min_word_length = 3;".data.length →
      ("config.min_word_length = 3;".data.drop i).take
          "word_length".data.length = "word_length".data →
      ((1 ≤ i ∧ wordAt "config.min_word_length = 3;".data (i - 1) = true) ∨
        wordAt "config.min_word_length = 3;".data
          (i + "word_length".data.length) = true)) ∧
    applyEntry "word_length".data "wordLength".data
      "config.min_word_length = 3;".data =
      ("config.min_word_length = 3;".data, 0) :=
  by
  have hsub : ∃ pre post, "min_word_length".data =
      pre ++ "word_length".data ++ post ∧ pre ++ post ≠ [] := by
    refine ⟨"min_".data, [], ?_, ?_⟩ <;> decide
  refine ⟨by decide, hsub, by decide, ?_⟩
  exact c8_word_boundary_anchoring (by decide) hsub (by decide)

/-!
Embedding of `remove_deleted_function_references` from
`remove_deleted_functions.py`.  The function applies, in order: the
import-entry removal regexes for both removed symbols, the three
separator-collapsing regexes, the two call-collapsing regexes, and the two
test-suppression regexes, while collecting modification messages whose
guards compare against the original text.
-/

/-- The first removed symbol. -/
def symT : List Char := "toUnifiedConfig".data

/-- The second removed symbol. -/
def symF : List Char := "fromUnifiedConfig".data

/-- Python pattern `,?\s*SYM\s*,?` with the replacement lambda of the
script: the match becomes a comma exactly when it both starts and ends
with a comma, otherwise it is removed.  The leading `,?` participates only
when the scan position holds a comma (the symbols start with a word
character, so no backtracking arises); the greedy `\s*` runs absorb the
surrounding whitespace into the match. -/
def impTry (sym : List Char) (t : List Char) : Option (List Char × List Char) :=
  match t with
  | ',' :: t2 =>
    match stripPref sym (skipWS t2) with
    | some r =>
      match skipWS r with
      | ',' :: rest => some ([','], rest)
      | _ => some ([], skipWS r)
    | none => none
  | _ =>
    match stripPref sym (skipWS t) with
    | some r =>
      match skipWS r with
      | ',' :: rest => some ([], rest)
      | _ => some ([], skipWS r)
    | none => none

/-- Python pattern `,\s*,` replaced by `,`. -/
def ccTry (t : List Char) : Option (List Char × List Char) :=
  match t with
  | ',' :: t2 =>
    match skipWS t2 with
    | ',' :: rest => some ([','], rest)
    | _ => none
  | _ => none

/-- Python pattern `{\s*,` replaced by `{`. -/
def bcTry (t : List Char) : Option (List Char × List Char) :=
  match t with
  | '\x7b' :: t2 =>
    match skipWS t2 with
    | ',' :: rest => some (['\x7b'], rest)
    | _ => none
  | _ => none

/-- Python pattern `,\s*}` replaced by `}`. -/
def cbTry (t : List Char) : Option (List Char × List Char) :=
  match t with
  | ',' :: t2 =>
    match skipWS t2 with
    | '\x7d' :: rest => some (['\x7d'], rest)
    | _ => none
  | _ => none

/-- Scanner variant tracking the previous input character, for a pattern
with a leading word boundary `\b`.  On a match the try also reports the
character the matched span ends with, which becomes the context for the
next position. -/
def rbF (tr : Option Char → List Char → Option (List Char × List Char × Option Char)) :
    Nat → Option Char → List Char → List Char
  | 0, _, t => t
  | _ + 1, _, [] => []
  | n + 1, pv, a :: t =>
    match tr pv (a :: t) with
    | some (rep, rest, pv2) => rep ++ rbF tr n pv2 rest
    | none => a :: rbF tr n (some a) t

/-- Substitution with previous-character context, starting at text start. -/
def rbSub (tr : Option Char → List Char → Option (List Char × List Char × Option Char))
    (t : List Char) : List Char := rbF tr t.length none t

/-- The part of `\bSYM\s*\(\s*([^)]+)\s*\)` after the boundary check.  The
bracketed group reaches up to (not including) the first closing
parenthesis; the greedy leading `\s*` keeps the group nonempty by giving
back whitespace when needed, and the group keeps its trailing whitespace.
The whole match is replaced by the group. -/
def callTryCore (sym : List Char) (t : List Char) :
    Option (List Char × List Char × Option Char) :=
  match stripPref sym t with
  | none => none
  | some r1 =>
    match expectCh '(' (skipWS r1) with
    | none => none
    | some r3 =>
      match r3.dropWhile (fun ch => ch ≠ ')') with
      | ')' :: rest =>
        match r3.takeWhile (fun ch => ch ≠ ')') with
        | [] => none
        | seg =>
          some (seg.drop (min (seg.takeWhile isWS).length (seg.length - 1)),
            rest, some ')')
      | _ => none

/-- Python pattern `\bSYM\s*\(\s*([^)]+)\s*\)` replaced by the group. -/
def callTry (sym : List Char) (pv : Option Char) (t : List Char) :
    Option (List Char × List Char × Option Char) :=
  match pv with
  | some ch => if isWord ch then none else callTryCore sym t
  | none => callTryCore sym t

/-- Python search `\bSYM\s*\(`, used only for the modification messages,
always evaluated on the original text. -/
def hasCallPat (sym : List Char) : Option Char → List Char → Bool
  | _, [] => false
  | pv, a :: t =>
    ((match pv with
      | some ch => !isWord ch
      | none => true) &&
      (match stripPref sym (a :: t) with
       | some r => (expectCh '(' (skipWS r)).isSome
       | none => false)) || hasCallPat sym (some a) t

/-- Lazy completion `.*?\{[^}]*?\}\);` after the symbol: the number of
characters consumed through `});`, at the earliest opening brace whose
brace-free run is followed directly by the closing sequence. -/
def compLen? : List Char → Option Nat
  | [] => none
  | a :: t =>
    (if a = '\x7b' then
      match t.dropWhile (fun ch => ch ≠ '\x7d') with
      | '\x7d' :: ')' :: ';' :: _ =>
        some ((t.takeWhile (fun ch => ch ≠ '\x7d')).length + 4)
      | _ => none
    else none) <|> (compLen? t).map (· + 1)

/-- Greedy `.*SYM` backtracking: the rightmost symbol position after which
the lazy completion succeeds, together with the completion's length. -/
def lastPosL (sym : List Char) : List Char → Option (Nat × Nat)
  | [] => none
  | a :: t =>
    match lastPosL sym t with
    | some (j, L) => some (j + 1, L)
    | none =>
      match stripPref sym (a :: t) with
      | some r =>
        match compLen? r with
        | some L => some (0, L)
        | none => none
      | none => none

/-- Python pattern `(Deno\.test\(.*SYM.*?\{[^}]*?\}\);)` with DOTALL,
replaced by `// \1 // Function removed in Process4 Sub3-2`. -/
def denoTry (sym : List Char) (t : List Char) : Option (List Char × List Char) :=
  match stripPref "Deno.test(".data t with
  | none => none
  | some R =>
    match lastPosL sym R with
    | none => none
    | some (i, L) =>
      some ("// ".data ++ ("Deno.test(".data ++ R.take (i + sym.length + L)) ++
        " // Function removed in Process4 Sub3-2".data,
        R.drop (i + sym.length + L))

def msgImpT : String := "Removed toUnifiedConfig from imports"

def msgImpF : String := "Removed fromUnifiedConfig from imports"

def msgCallT : String := "Replaced toUnifiedConfig() calls with direct config usage"

def msgCallF : String := "Replaced fromUnifiedConfig() calls with direct config usage"

/-- The text transformation and modification list of
`remove_deleted_function_references`: nine substitutions in source order;
each message guard compares the current text against the original text. -/
def removeRefs (orig : List Char) : List Char × List String :=
  let c1 := (rs (impTry symT) orig).1
  let m1 : List String := if c1 ≠ orig then [msgImpT] else []
  let c2 := (rs (impTry symF) c1).1
  let m2 := m1 ++ (if c2 ≠ orig then [msgImpF] else [])
  let c3 := (rs ccTry c2).1
  let c4 := (rs bcTry c3).1
  let c5 := (rs cbTry c4).1
  let c6 := rbSub (callTry symT) c5
  let m3 := m2 ++ (if hasCallPat symT none orig then [msgCallT] else [])
  let c7 := rbSub (callTry symF) c6
  let m4 := m3 ++ (if hasCallPat symF none orig then [msgCallF] else [])
  let c8 := (rs (denoTry symT) c7).1
  let c9 := (rs (denoTry symF) c8).1
  (c9, m4)

/-- The pruned text. -/
def removeRefsText (orig : List Char) : List Char := (removeRefs orig).1

/-- The value the function returns: the number of modification messages if
the text changed, else 0. -/
def removeRefsCount (orig : List Char) : Nat :=
  if (removeRefs orig).1 ≠ orig then (removeRefs orig).2.length else 0

/-- Whether the function writes the file back (only on a genuine change). -/
def removeRefsWrites (orig : List Char) : Bool :=
  decide ((removeRefs orig).1 ≠ orig)

/-- Substring presence (at any position). -/
def hasSub (p : List Char) : List Char → Bool
  | [] => (stripPref p []).isSome
  | a :: t => (stripPref p (a :: t)).isSome || hasSub p t

/-- Claim C1 (code bug): on `const x = toUnifiedConfig(config);` the
function produces `const x =(config);`, not the spec's `const x = config;`.
The unanchored import-removal pattern `,?\s*toUnifiedConfig\s*,?` matches
the symbol (and the preceding space) anywhere in the file, so it deletes
the call's name before the call-collapsing step can fire; the call step
then finds nothing. -/
theorem c1_call_site_divergence :
    removeRefsText "const x = toUnifiedConfig(config);".data =
      "const x =(config);".data ∧
    removeRefsText "const x = toUnifiedConfig(config);".data ≠
      "const x = config;".data := by decide

/-- Claim C5: pruning the spec's example yields exactly the expected
output, with the entry and one adjacent separator removed and the
resulting list still syntactically valid. -/
theorem c5_import_pruning :
    removeRefsText ("import".data ++
        " \x7b toUnifiedConfig, otherThing \x7d from \x22./x\x22;".data) =
      "import".data ++ " \x7b otherThing \x7d from \x22./x\x22;".data := by
  decide

/-- Claim C6 (code bug): a call site whose argument has nested parentheses
is not left byte-for-byte untouched: the import-removal pattern still
deletes the symbol name and the preceding space (the argument text itself
survives, and no exception can arise as the embedding is total). -/
theorem c6_nested_call_divergence :
    removeRefsText "const y = toUnifiedConfig(getConfig(x));".data =
      "const y =(getConfig(x));".data ∧
    removeRefsText "const y = toUnifiedConfig(getConfig(x));".data ≠
      "const y = toUnifiedConfig(getConfig(x));".data := by decide

/-- Claim C7 (code bug): a Deno.test block whose title references
toUnifiedConfig is not commented out.  The import-removal pattern deletes
every occurrence of the symbol from the whole file first, so the
test-suppression regex (which requires the symbol between `Deno.test(` and
the block) can never match; the block's title is mangled instead and no
`//` marker appears anywhere in the output. -/
theorem c7_test_block_divergence :
    removeRefsText "Deno.test(\x22toUnifiedConfig\x22, () => \x7b x \x7d);".data =
      "Deno.test(\x22\x22, () => \x7b x \x7d);".data ∧
    hasSub "//".data
      (removeRefsText
        "Deno.test(\x22toUnifiedConfig\x22, () => \x7b x \x7d);".data) =
      false := by decide

/-- Claim C9: the pruning transformation is not the identity on texts free
of both removed symbols: the separator-collapsing rewrites apply to the
whole text unconditionally, for example inside a string literal. -/
theorem c9_not_identity_on_symbol_free_text :
    ∃ t : List Char, hasSub symT t = false ∧ hasSub symF t = false ∧
      removeRefsText t ≠ t :=
  ⟨"const s = \x22a, ,b\x22;".data, by decide, by decide, by decide⟩

/-- Claim C10: the modification summary can misattribute changes: for an
input with toUnifiedConfig in an import list and no occurrence of
fromUnifiedConfig at all, the list still gains
"Removed fromUnifiedConfig from imports" (and the returned count includes
it), because the guard compares against the original text rather than the
text immediately before the fromUnifiedConfig step. -/
theorem c10_misattributed_modification :
    ∃ t : List Char, hasSub symF t = false ∧
      msgImpF ∈ (removeRefs t).2 ∧ removeRefsCount t = 2 :=
  ⟨"import".data ++
      " \x7b toUnifiedConfig, otherThing \x7d from \x22./x\x22;".data,
    by decide, by decide, by decide⟩
